import Mathlib

/-!
Verification development for the liquidizer plugin.

Part 1 models the literal-value layer of `src/liquid-var-utils.ts`:
the JavaScript number conversion used by `Number(...)`, the value type
produced by `parseLiquidValue`, and `parseLiquidValue` itself.

Machine numbers are idealised as exact rationals in lowest terms; the
coercion rules of the host conversion are modelled syntactically, NaN is
represented by `none`.  All definitions are structural recursions so
that concrete runs reduce inside the kernel.
-/

/-- Named characters, written via code points. -/
def qSingle : Char := Char.ofNat 39

def qDouble : Char := Char.ofNat 34

def lbraceC : Char := Char.ofNat 123

def rbraceC : Char := Char.ofNat 125

/-- Whitespace as the scanners treat it. -/
def isJsSpace (c : Char) : Bool := c.isWhitespace

/-- Trim of the host language, realised on the character list. -/
def jsTrim (s : String) : String :=
  String.mk (((s.data.dropWhile isJsSpace).reverse.dropWhile isJsSpace).reverse)

/-- Euclidean algorithm with explicit fuel, so that it reduces by
structural recursion. -/
def gcdFuel : Nat → Nat → Nat → Nat
  | 0, _, b => b
  | _ + 1, 0, b => b
  | fuel + 1, a + 1, b => gcdFuel fuel (b % (a + 1)) (a + 1)

def natGcd (a b : Nat) : Nat := gcdFuel (a + b + 1) a b

/-- An exact rational in lowest terms, the idealisation of a finite
machine number.  Always built through `mkNum`, so that structural
equality coincides with numeric equality. -/
structure NumVal where
  num : Int
  den : Nat
deriving DecidableEq, Repr

/-- Normalised fraction `n / d` (with `d ≠ 0` for meaningful input). -/
def mkNum (n : Int) (d : Nat) : NumVal :=
  let g := natGcd n.natAbs d
  if g = 0 then ⟨0, 1⟩ else ⟨n / (g : Int), d / g⟩

def NumVal.negate (q : NumVal) : NumVal := ⟨-q.num, q.den⟩

/-- A JavaScript number that is not NaN: a finite value or one of the
two infinities. -/
inductive JsNum where
  | val (q : NumVal)
  | inf
  | negInf
deriving DecidableEq, Repr

/-- The finite number with integer value `n`. -/
def jsInt (n : Int) : JsNum := .val ⟨n, 1⟩

/-- The values `parseLiquidValue` can produce: string, number, boolean or
null.  Equality of two such values matches the SameValueZero comparison
used by the Set that collects them. -/
inductive LiquidValue where
  | str (s : String)
  | num (n : JsNum)
  | bool (b : Bool)
  | null
deriving DecidableEq, Repr

def digitVal (c : Char) : Nat := c.toNat - '0'.toNat

def decDigitsVal (cs : List Char) : Nat :=
  cs.foldl (fun a c => 10 * a + digitVal c) 0

def isHexDigit (c : Char) : Bool :=
  c.isDigit || ('a' ≤ c && c ≤ 'f') || ('A' ≤ c && c ≤ 'F')

def hexDigitVal (c : Char) : Nat :=
  if c.isDigit then digitVal c
  else if 'a' ≤ c && c ≤ 'f' then 10 + c.toNat - 'a'.toNat
  else 10 + c.toNat - 'A'.toNat

def hexDigitsVal (cs : List Char) : Nat :=
  cs.foldl (fun a c => 16 * a + hexDigitVal c) 0

def isOctDigit (c : Char) : Bool := '0' ≤ c && c ≤ '7'

def octDigitsVal (cs : List Char) : Nat :=
  cs.foldl (fun a c => 8 * a + digitVal c) 0

def isBinDigit (c : Char) : Bool := c == '0' || c == '1'

def binDigitsVal (cs : List Char) : Nat :=
  cs.foldl (fun a c => 2 * a + digitVal c) 0

/-- The fraction `n / d` multiplied by the signed power `10 ^ e`, in
lowest terms. -/
def applyExp10 (n : Int) (d : Nat) (e : Int) : NumVal :=
  if 0 ≤ e then mkNum (n * (10 : Int) ^ e.toNat) d else mkNum n (d * 10 ^ (-e).toNat)

/-- Exponent part of a decimal numeric string: either nothing is left, or
`e`/`E`, an optional sign and at least one digit consuming the rest. -/
def parseExponent : List Char → Option Int
  | [] => some 0
  | c :: cs =>
    if c == 'e' || c == 'E' then
      match cs with
      | '+' :: ds =>
        if ds ≠ [] && ds.all Char.isDigit then some (decDigitsVal ds : Int) else none
      | '-' :: ds =>
        if ds ≠ [] && ds.all Char.isDigit then some (-(decDigitsVal ds : Int)) else none
      | ds =>
        if ds ≠ [] && ds.all Char.isDigit then some (decDigitsVal ds : Int) else none
    else none

/-- Unsigned decimal literal of the string-to-number conversion:
`digits [. digits] [exp]` or `. digits [exp]`. -/
def parseUnsignedDec (cs : List Char) : Option NumVal :=
  let intD := cs.takeWhile Char.isDigit
  let rest := cs.dropWhile Char.isDigit
  if intD.isEmpty then
    match rest with
    | '.' :: cs' =>
      let fracD := cs'.takeWhile Char.isDigit
      let rest' := cs'.dropWhile Char.isDigit
      if fracD.isEmpty then none
      else
        (parseExponent rest').map fun e =>
          applyExp10 (decDigitsVal fracD : Int) (10 ^ fracD.length) e
    | _ => none
  else
    match rest with
    | '.' :: cs' =>
      let fracD := cs'.takeWhile Char.isDigit
      let rest' := cs'.dropWhile Char.isDigit
      (parseExponent rest').map fun e =>
        applyExp10 ((decDigitsVal intD : Int) * 10 ^ fracD.length + (decDigitsVal fracD : Int))
          (10 ^ fracD.length) e
    | _ =>
      (parseExponent rest).map fun e => applyExp10 (decDigitsVal intD : Int) 1 e

/-- Model of the JavaScript string-to-number conversion (`Number(s)`):
`none` models NaN, otherwise the numeric value.  Whitespace is trimmed,
the empty string converts to `0`, `Infinity` with optional sign is
accepted, and unsigned hexadecimal, octal and binary prefixes are
recognised. -/
def stringToNumber (s : String) : Option JsNum :=
  let cs := (jsTrim s).data
  if cs.isEmpty then some (jsInt 0)
  else if cs = "Infinity".data || cs = '+' :: "Infinity".data then some .inf
  else if cs = '-' :: "Infinity".data then some .negInf
  else
    match cs with
    | '+' :: rest => (parseUnsignedDec rest).map fun q => .val q
    | '-' :: rest => (parseUnsignedDec rest).map fun q => .val q.negate
    | '0' :: c :: rest =>
      if c == 'x' || c == 'X' then
        if rest ≠ [] && rest.all isHexDigit then some (jsInt (hexDigitsVal rest : Int)) else none
      else if c == 'o' || c == 'O' then
        if rest ≠ [] && rest.all isOctDigit then some (jsInt (octDigitsVal rest : Int)) else none
      else if c == 'b' || c == 'B' then
        if rest ≠ [] && rest.all isBinDigit then some (jsInt (binDigitsVal rest : Int)) else none
      else (parseUnsignedDec cs).map fun q => .val q
    | _ => (parseUnsignedDec cs).map fun q => .val q

/-- Head-character test: the JavaScript `startsWith` call of the source,
specialised to a one-character pattern. -/
def headIs (q : Char) : List Char → Bool
  | c :: _ => c == q
  | [] => false

/-- Last-character test: the JavaScript `endsWith` call of the source,
specialised to a one-character pattern. -/
def lastIs (q : Char) (cs : List Char) : Bool :=
  match cs.getLast? with
  | some c => c == q
  | none => false

/-- `parseLiquidValue` from `src/liquid-var-utils.ts`: classify a raw
matched token.  `none` as input models an undefined/null argument and is
returned unchanged; otherwise the token is trimmed and classified as
boolean keyword, null keyword, quoted string (first and last character
the same quote, stripped via `slice(1, -1)`), number accepted by the
host conversion (empty string excluded), or the raw trimmed string. -/
def parseLiquidValue : Option String → Option LiquidValue
  | none => none
  | some valStr =>
    let t := jsTrim valStr
    if t = "true" then some (.bool true)
    else if t = "false" then some (.bool false)
    else if t = "nil" || t = "null" then some .null
    else if (headIs qSingle t.data && lastIs qSingle t.data)
        || (headIs qDouble t.data && lastIs qDouble t.data) then
      some (.str (String.mk ((t.data.drop 1).dropLast)))
    else
      match stringToNumber t with
      | some n => if t ≠ "" then some (.num n) else some (.str t)
      | none => some (.str t)

/-!
Part 2 models the scanning layer of `src/liquid-var-utils.ts`.  Each
dynamically built regular expression of `findLiquidVariableValues` is
translated into a matcher over character lists; a generic driver
`scanAll` reproduces the semantics of global `matchAll`/`test`: repeated
leftmost matching, resuming after the end of each match.  The variable
name is interpolated literally, which is faithful for the identifier
names the callers supply; names containing pattern metacharacters are
handled by the compilation check `regexFragmentValid` below.
-/

def isWordChar (c : Char) : Bool := c.isAlphanum || c == '_'

def isWordO : Option Char → Bool
  | none => false
  | some c => isWordChar c

/-- A non-empty name consisting of word characters only. -/
def isWordIdent (v : String) : Bool := !v.data.isEmpty && v.data.all isWordChar

/-- Scanner position: the character just before the cursor (`none` at the
start of input) and the remaining characters. -/
abbrev ScanPos := Option Char × List Char

/-- Last character of `l`, falling back to `pr` when `l` is empty. -/
def lastO (l : List Char) (pr : Option Char) : Option Char :=
  match l.getLast? with
  | some c => some c
  | none => pr

/-- Match a literal, advancing past it. -/
def litP (lit : List Char) (p : ScanPos) : Option ScanPos :=
  if lit.isPrefixOf p.2 then some (lastO lit p.1, p.2.drop lit.length) else none

/-- Greedy whitespace run (pattern piece `\s*`). -/
def wsStar (p : ScanPos) : ScanPos :=
  (lastO (p.2.takeWhile isJsSpace) p.1, p.2.dropWhile isJsSpace)

/-- At least one whitespace character (pattern piece `\s+`). -/
def wsPlus (p : ScanPos) : Option ScanPos :=
  match p.2 with
  | c :: _ => if isJsSpace c then some (wsStar p) else none
  | [] => none

/-- Optional dash (pattern piece for trim markers). -/
def dashOpt (p : ScanPos) : ScanPos :=
  match p.2 with
  | c :: cs => if c == '-' then (some '-', cs) else p
  | [] => p

/-- Word-boundary test at the cursor. -/
def atBoundary (p : ScanPos) : Bool := isWordO p.1 != isWordO p.2.head?

def tagOpenL : List Char := [lbraceC, '%']

def tagCloseL : List Char := ['%', rbraceC]

/-- The comparison operators, tried in the order of the pattern. -/
def matchOper (p : ScanPos) : Option ScanPos :=
  litP "==".data p <|> litP "!=".data p <|> litP ">=".data p <|> litP "<=".data p <|>
  litP ">".data p <|> litP "<".data p <|> litP "contains".data p

/-- A quoted alternative of the value pattern: the quote, a run of
non-quote characters, and the closing quote; the capture keeps the
quotes. -/
def quotedTok (q : Char) (p : ScanPos) : Option (String × ScanPos) :=
  match p.2 with
  | c :: cs =>
    if c == q then
      let inner := cs.takeWhile fun d => d != q
      match cs.dropWhile fun d => d != q with
      | _ :: rest => some (String.mk (q :: inner ++ [q]), (some q, rest))
      | [] => none
    else none
  | [] => none

/-- The numeric alternative of the value pattern: optional minus, digits,
optionally a dot and more digits. -/
def numberTok (p : ScanPos) : Option (String × ScanPos) :=
  let sr :=
    match p.2 with
    | c :: cs => if c == '-' then ([c], cs) else (([] : List Char), p.2)
    | [] => ([], p.2)
  let ds := sr.2.takeWhile Char.isDigit
  if ds.isEmpty then none
  else
    let rest2 := sr.2.dropWhile Char.isDigit
    match rest2 with
    | '.' :: cs2 =>
      let fs := cs2.takeWhile Char.isDigit
      if fs.isEmpty then some (String.mk (sr.1 ++ ds), (lastO ds none, rest2))
      else some (String.mk (sr.1 ++ ds ++ '.' :: fs), (lastO fs none, cs2.dropWhile Char.isDigit))
    | _ => some (String.mk (sr.1 ++ ds), (lastO ds none, rest2))

/-- A keyword alternative of the value pattern. -/
def kwTok (kw : String) (p : ScanPos) : Option (String × ScanPos) :=
  (litP kw.data p).map fun p' => (kw, p')

/-- The whole value pattern, alternatives in source order. -/
def valueTok (p : ScanPos) : Option (String × ScanPos) :=
  quotedTok qSingle p <|> quotedTok qDouble p <|> numberTok p <|>
  kwTok "true" p <|> kwTok "false" p <|> kwTok "nil" p <|> kwTok "null" p

/-- Matcher of the comparison pattern at the cursor: word boundary, the
variable name, word boundary, optional space, an operator, optional
space and a value literal; yields the captured literal and the length of
the whole match. -/
def compM (v : List Char) (prev : Option Char) (cs : List Char) : Option (String × Nat) :=
  if atBoundary (prev, cs) then
    match litP v (prev, cs) with
    | some p1 =>
      if atBoundary p1 then
        match matchOper (wsStar p1) with
        | some p3 =>
          match valueTok (wsStar p3) with
          | some (cap, p5) => some (cap, cs.length - p5.2.length)
          | none => none
        | none => none
      else none
    | none => none
  else none

/-- After the condition variable of the boolean pattern: word boundary,
optional space, then a logical connector or the tag close. -/
def boolCond (v : List Char) (p : ScanPos) : Option ScanPos :=
  match litP v p with
  | some p' =>
    if atBoundary p' then
      let p2 := wsStar p'
      litP "and".data p2 <|> litP "or".data p2 <|> litP tagCloseL p2
    else none
  | none => none

/-- Optional negation before the condition variable; both alternatives of
the optional group are tried, as backtracking does. -/
def boolNotCond (v : List Char) (p : ScanPos) : Option ScanPos :=
  ((litP "not".data p).bind fun pn => (wsPlus pn).bind fun pn2 => boolCond v pn2) <|>
  boolCond v p

/-- The keyword alternation of the boolean pattern, each alternative with
its continuation. -/
def boolKw (v : List Char) (p : ScanPos) : Option ScanPos :=
  ((litP "if".data p).bind fun pk => (wsPlus pk).bind (boolNotCond v)) <|>
  ((litP "unless".data p).bind fun pk => (wsPlus pk).bind (boolNotCond v)) <|>
  ((litP "elsif".data p).bind fun pk => (wsPlus pk).bind (boolNotCond v))

/-- Matcher of the boolean-context pattern. -/
def boolM (v : List Char) (prev : Option Char) (cs : List Char) : Option (Unit × Nat) :=
  (litP tagOpenL (prev, cs)).bind fun p1 =>
    (boolKw v (wsStar (dashOpt p1))).map fun pe => ((), cs.length - pe.2.length)

/-- The endcase tag, matched at the head of the list; yields its length. -/
def endcaseTagAt (cs : List Char) : Option Nat :=
  (litP tagOpenL (none, cs)).bind fun p1 =>
    (litP "endcase".data (wsStar (dashOpt p1))).bind fun p4 =>
      (litP tagCloseL (dashOpt (wsStar p4))).map fun p7 => cs.length - p7.2.length

/-- Lazy search for the endcase tag: the shortest prefix after which the
tag matches, as the non-greedy group of the case pattern produces. -/
def findEndcase : List Char → Option (List Char × Nat)
  | [] => none
  | c :: cs' =>
    match endcaseTagAt (c :: cs') with
    | some n => some ([], n)
    | none => (findEndcase cs').map fun r => (c :: r.1, r.2 + 1)

/-- Matcher of the case pattern: the case tag holding the variable name,
then the lazily delimited block content up to the endcase tag; yields
the block content and the length of the whole match. -/
def caseM (v : List Char) (prev : Option Char) (cs : List Char) : Option (List Char × Nat) :=
  (litP tagOpenL (prev, cs)).bind fun p1 =>
  (litP "case".data (wsStar (dashOpt p1))).bind fun p4 =>
  (wsPlus p4).bind fun p5 =>
  (litP v p5).bind fun p6 =>
  (litP tagCloseL (dashOpt (wsStar p6))).bind fun p9 =>
  (findEndcase p9.2).map fun r => (r.1, (cs.length - p9.2.length) + r.2)

/-- The close of a when tag (`\s*-?%}`) at the head of the list. -/
def closeTagAt (cs : List Char) : Option Nat :=
  (litP tagCloseL (dashOpt (wsStar (none, cs)))).map fun p => cs.length - p.2.length

def isLineTerm (c : Char) : Bool :=
  c == '\n' || c == '\r' || c.toNat == 0x2028 || c.toNat == 0x2029

/-- Lazy capture of a when clause: the shortest run of non-terminator
characters after which the tag close matches. -/
def findWhenClose : List Char → Option (List Char × Nat)
  | [] => none
  | c :: cs' =>
    match closeTagAt (c :: cs') with
    | some n => some ([], n)
    | none =>
      if isLineTerm c then none
      else (findWhenClose cs').map fun r => (c :: r.1, r.2 + 1)

/-- Matcher of the when pattern inside a case block. -/
def whenTagM (prev : Option Char) (cs : List Char) : Option (String × Nat) :=
  (litP tagOpenL (prev, cs)).bind fun p1 =>
  (litP "when".data (wsStar (dashOpt p1))).bind fun p4 =>
  (wsPlus p4).bind fun p5 =>
  (findWhenClose p5.2).map fun r => (String.mk r.1, (cs.length - p5.2.length) + r.2)

/-- Global scanning driver: at each position either skip (inside a
previous match), emit a match and jump past it, or advance one
character.  Reproduces `matchAll` with the global flag. -/
def scanAll {α : Type} (M : Option Char → List Char → Option (α × Nat)) :
    Option Char → Nat → List Char → List α
  | _, _, [] => []
  | _, skip + 1, c :: cs => scanAll M (some c) skip cs
  | prev, 0, c :: cs =>
    match M prev (c :: cs) with
    | some (a, n) => a :: scanAll M (some c) (n - 1) cs
    | none => scanAll M (some c) 0 cs

/-- The separator of when conditions (`\s+or\s+`) at the head of the
list; yields the rest after the separator. -/
def orSepAt (cs : List Char) : Option (List Char) :=
  (wsPlus (none, cs)).bind fun p1 =>
    (litP "or".data p1).bind fun p2 => (wsPlus p2).map fun p3 => p3.2

def splitOrGo : Nat → List Char → List Char → List String
  | 0, acc, cs => [String.mk (acc ++ cs)]
  | fuel + 1, acc, cs =>
    match orSepAt cs with
    | some rest => String.mk acc :: splitOrGo fuel [] rest
    | none =>
      match cs with
      | [] => [String.mk acc]
      | c :: cs' => splitOrGo fuel (acc ++ [c]) cs'

/-- Split a when condition on the or separator. -/
def splitOnOr (s : String) : List String := splitOrGo (s.data.length + 1) [] s.data

/-- Insertion into the value collection: the Set of the source keeps
first occurrences in insertion order and drops later duplicates. -/
def insertValue (l : List LiquidValue) (x : LiquidValue) : List LiquidValue :=
  if x ∈ l then l else l ++ [x]

/-- Parse a captured token and add it when defined. -/
def addParsed (acc : List LiquidValue) (tok : String) : List LiquidValue :=
  match parseLiquidValue (some tok) with
  | some pv => insertValue acc pv
  | none => acc

def comparisonCaptures (v : String) (tpl : String) : List String :=
  scanAll (compM v.data) none 0 tpl.data

def booleanHit (v : String) (tpl : String) : Bool :=
  !(scanAll (boolM v.data) none 0 tpl.data).isEmpty

def caseBlocks (v : String) (tpl : String) : List (List Char) :=
  scanAll (caseM v.data) none 0 tpl.data

def whenCaptures (blockContent : List Char) : List String :=
  scanAll whenTagM none 0 blockContent

/-- Evidence collection for one variable: comparison captures, then the
boolean-context detector, then every when clause of every case block,
each clause split on the or separator. -/
def analyzeOne (v : String) (tpl : String) : List LiquidValue :=
  let s1 := (comparisonCaptures v tpl).foldl addParsed []
  let s2 :=
    if booleanHit v tpl then insertValue (insertValue s1 (.bool true)) (.bool false) else s1
  (caseBlocks v tpl).foldl
    (fun acc blk =>
      (whenCaptures blk).foldl (fun acc w => (splitOnOr w).foldl addParsed acc) acc) s2

def bslashC : Char := Char.ofNat 92

/-- Validity of a variable name interpolated into a pattern source, as
the host pattern compiler checks it: group parentheses balanced outside
character classes, classes closed, no dangling escape.  The surrounding
fixed pattern text is balanced, so compilation fails exactly when the
interpolated fragment is invalid. -/
def fragScan : List Char → Nat → Bool → Bool
  | [], d, inCl => d == 0 && !inCl
  | c :: cs, d, inCl =>
    if c == bslashC then
      match cs with
      | [] => false
      | _ :: cs' => fragScan cs' d inCl
    else if inCl then
      if c == ']' then fragScan cs d false else fragScan cs d true
    else if c == '(' then fragScan cs (d + 1) inCl
    else if c == ')' then (if d == 0 then false else fragScan cs (d - 1) inCl)
    else if c == '[' then fragScan cs d true
    else fragScan cs d inCl

def regexFragmentValid (s : String) : Bool := fragScan s.data 0 false

/-- `findLiquidVariableValues` from `src/liquid-var-utils.ts`: for each
variable name three patterns are compiled and run over the template; a
name the pattern compiler rejects raises (the error carries the name),
which the model returns as `.error`.  Otherwise each name maps to its
collected evidence list. -/
def findLiquidVariableValues (variableNames : List String) (liquidTemplate : String) :
    Except String (List (String × List LiquidValue)) :=
  match variableNames.find? fun n => !regexFragmentValid n with
  | some bad => .error bad
  | none => .ok (variableNames.eraseDups.map fun v => (v, analyzeOne v liquidTemplate))

/-!
The type-determination fold of `FrontmatterFastEditor.analyze`
(`src/unnamed/part_000`, lines 286 to 318).
-/

/-- A frontmatter value as the analyze step distinguishes them; `none`
at the use sites models an absent key. -/
inductive FmValue where
  | str (s : String)
  | num (q : NumVal)
  | bool (b : Bool)
  | null
  | arr
  | obj
deriving DecidableEq, Repr

def lvIsNumberType : LiquidValue → Bool
  | .num _ => true
  | _ => false

def lvIsBooleanType : LiquidValue → Bool
  | .bool _ => true
  | _ => false

def lvIsNull : LiquidValue → Bool
  | .null => true
  | _ => false

/-- The host `typeof` applied to a collected value is `object` exactly
for null. -/
def lvIsObjectType : LiquidValue → Bool
  | .null => true
  | _ => false

/-- The type chain of `analyze`: the current frontmatter value decides
first (array, null, object, number, boolean); a string or absent value
falls through to the evidence list, whose homogeneous type wins,
defaulting to string. -/
def typeOfVar (currentValue : Option FmValue) (vals : List LiquidValue) : String :=
  match currentValue with
  | some .arr => "array"
  | some .null => "null"
  | some .obj => "object"
  | some (.num _) => "number"
  | some (.bool _) => "boolean"
  | _ =>
    if vals.length == 0 then "string"
    else if vals.all lvIsNumberType then "number"
    else if vals.all lvIsBooleanType then "boolean"
    else if vals.all lvIsNull then "null"
    else if vals.all lvIsObjectType then "object"
    else "string"

/-- The kind a stored metadata value seeds, in the vocabulary of the
specification. -/
def metadataSeededKind : FmValue → String
  | .arr => "array"
  | .null => "null"
  | .obj => "object"
  | .num _ => "number"
  | .bool _ => "boolean"
  | .str _ => "string"

/-!
Part 3 models the scoped tree reconciler.  The two gate predicates are
translated from `src/helpers.ts` (`updateAllowed`,
`addOrDiscardAllowed`); the walk that threads them is the morphing
library the source delegates to, which is not part of this repository.

Modelled from the spec: the reconciliation walk of section 4.2 — the
structural-equality short-circuit, the update gate on matched element
pairs (no descent into ineligible mismatched nodes), the add/discard
gate on inserted and removed nodes, and positional recursion into
matched child pairs.  An update adopts the replacement attributes and
classes; a matched pair of incompatible nodes is handled as a gated
discard plus insert, preserving the live node when either gate refuses.
-/

/-- A document node: an element with tag, class list, other attributes
and children, or a text node. -/
inductive Node where
  | elem (tag : String) (classes : List String) (attrs : List (String × String)) (children : List Node)
  | text (s : String)

mutual

/-- Structural equality test, the model of `isEqualNode` deep equality
the gates consult. -/
def Node.decEq : (a b : Node) → Decidable (a = b)
  | .text s, .text t =>
    if h : s = t then isTrue (by rw [h]) else isFalse fun hh => by cases hh; exact h rfl
  | .text _, .elem _ _ _ _ => isFalse fun hh => by cases hh
  | .elem _ _ _ _, .text _ => isFalse fun hh => by cases hh
  | .elem t1 c1 a1 ch1, .elem t2 c2 a2 ch2 =>
    if h1 : t1 = t2 then
      if h2 : c1 = c2 then
        if h3 : a1 = a2 then
          match Node.decEqList ch1 ch2 with
          | isTrue h4 => isTrue (by rw [h1, h2, h3, h4])
          | isFalse h4 => isFalse fun hh => by cases hh; exact h4 rfl
        else isFalse fun hh => by cases hh; exact h3 rfl
      else isFalse fun hh => by cases hh; exact h2 rfl
    else isFalse fun hh => by cases hh; exact h1 rfl
termination_by structural a => a

def Node.decEqList : (as bs : List Node) → Decidable (as = bs)
  | [], [] => isTrue rfl
  | [], _ :: _ => isFalse fun hh => by cases hh
  | _ :: _, [] => isFalse fun hh => by cases hh
  | a :: as, b :: bs =>
    match Node.decEq a b with
    | isTrue h1 =>
      match Node.decEqList as bs with
      | isTrue h2 => isTrue (by rw [h1, h2])
      | isFalse h2 => isFalse fun hh => by cases hh; exact h2 rfl
    | isFalse h1 => isFalse fun hh => by cases hh; exact h1 rfl
termination_by structural as => as

end

instance : DecidableEq Node := Node.decEq

def Node.isElem : Node → Bool
  | .elem _ _ _ _ => true
  | .text _ => false

/-- Membership in the class list of an element; a text node has no class
list. -/
def Node.hasClass (c : String) : Node → Bool
  | .elem _ cls _ _ => cls.contains c
  | .text _ => false

/-- `updateAllowed` from `src/helpers.ts`: deep-equal pairs are skipped,
the designated root class always allows an update, the reconcilable mark
allows an update, anything else refuses. -/
def updateAllowed (fromEl toEl : Node) : Bool :=
  if fromEl = toEl then false
  else if fromEl.hasClass "markdown-preview-section" then true
  else if fromEl.hasClass "liquidized" then true
  else false

/-- `addOrDiscardAllowed` from `src/helpers.ts`: nodes without a class
list (text nodes) may always be added or discarded, elements only when
they carry the reconcilable mark. -/
def addOrDiscardAllowed : Node → Bool
  | .text _ => true
  | .elem _ cls _ _ => cls.contains "liquidized"

/-- Result of reconciling one pair: the new live node, the nodes the
walk discarded and the nodes it inserted (the direct targets of the
gated operations). -/
structure MorphOut where
  out : Node
  removed : List Node
  inserted : List Node

/-- Modelled from the spec: gated discard of surplus live children; the
kept children and the discarded ones. -/
def discardRun : List Node → List Node × List Node
  | [] => ([], [])
  | f :: fs =>
    let r := discardRun fs
    if addOrDiscardAllowed f then (r.1, f :: r.2) else (f :: r.1, r.2)

/-- Modelled from the spec: gated insertion of surplus replacement
children; the resulting children and the inserted ones. -/
def insertRun : List Node → List Node × List Node
  | [] => ([], [])
  | t :: ts =>
    let r := insertRun ts
    if addOrDiscardAllowed t then (t :: r.1, t :: r.2) else r

mutual

/-- Modelled from the spec: one step of the reconciliation walk on a
matched pair. -/
def morphR (f t : Node) : MorphOut :=
  match f, t with
  | .text _, .text u => ⟨.text u, [], []⟩
  | .elem ft fc fa fch, .elem tt tc ta tch =>
    if (Node.elem ft fc fa fch : Node) = .elem tt tc ta tch then ⟨.elem ft fc fa fch, [], []⟩
    else if ft = tt then
      if updateAllowed (.elem ft fc fa fch) (.elem tt tc ta tch) then
        let r := morphChildren fch tch
        ⟨.elem ft tc ta r.1, r.2.1, r.2.2⟩
      else ⟨.elem ft fc fa fch, [], []⟩
    else if addOrDiscardAllowed (.elem ft fc fa fch) && addOrDiscardAllowed (.elem tt tc ta tch) then
      ⟨.elem tt tc ta tch, [.elem ft fc fa fch], [.elem tt tc ta tch]⟩
    else ⟨.elem ft fc fa fch, [], []⟩
  | f, t =>
    if addOrDiscardAllowed f && addOrDiscardAllowed t then ⟨t, [f], [t]⟩ else ⟨f, [], []⟩
termination_by structural f

/-- Modelled from the spec: positional recursion into matched child
pairs, the surplus on either side handled by the gated runs. -/
def morphChildren : List Node → List Node → List Node × List Node × List Node
  | [], ts =>
    let r := insertRun ts
    (r.1, [], r.2)
  | f :: fs, [] =>
    let r := discardRun (f :: fs)
    (r.1, r.2, [])
  | f :: fs, t :: ts =>
    let m := morphR f t
    let r := morphChildren fs ts
    (m.out :: r.1, m.removed ++ r.2.1, m.inserted ++ r.2.2)
termination_by structural fs => fs

end

/-- `diffAndUpdate` reduced to its tree transformation: the reconciled
live tree. -/
def morph (f t : Node) : Node := (morphR f t).out

mutual

/-- Every element of the tree carries the reconcilable mark — the shape
the plugin produces for replacement trees, marking the container and all
its descendants before rendering. -/
def allMarked : Node → Bool
  | .text _ => true
  | .elem _ cls _ ch => cls.contains "liquidized" && allMarkedList ch
termination_by structural n => n

def allMarkedList : List Node → Bool
  | [] => true
  | n :: ns => allMarked n && allMarkedList ns
termination_by structural ns => ns

end

mutual

/-- Concatenated text of a node, as the document model reads it. -/
def Node.textContent : Node → String
  | .text s => s
  | .elem _ _ _ ch => Node.textContentList ch
termination_by structural n => n

def Node.textContentList : List Node → String
  | [] => ""
  | n :: ns => Node.textContent n ++ Node.textContentList ns
termination_by structural ns => ns

end

/-- Child access on an element. -/
def Node.childAt (i : Nat) : Node → Option Node
  | .elem _ _ _ ch => ch[i]?
  | .text _ => none

/-!
Specification-side definitions for the literal value grammar, used to
compare the stated classification rule with the implemented one.
-/

/-- The decimal-number grammar as the specification words rule (d) of
the literal value grammar: an optional minus sign, digits, and an
optional fractional part, consuming the whole token. -/
def specDecimalFull (cs : List Char) : Bool :=
  let body := match cs with
    | '-' :: r => r
    | r => r
  let ds := body.takeWhile Char.isDigit
  let rest := body.dropWhile Char.isDigit
  !ds.isEmpty &&
    (match rest with
     | [] => true
     | '.' :: fs => !fs.isEmpty && fs.all Char.isDigit
     | _ => false)

/-- The classification rule exactly as the specification states it:
trim, then boolean keyword, null keyword, a token fully wrapped in a
single matching pair of quotes (two quote characters), a token that
parses fully as a decimal number, otherwise the raw trimmed string. -/
def parseLiquidValueSpec : Option String → Option LiquidValue
  | none => none
  | some valStr =>
    let t := jsTrim valStr
    if t = "true" then some (.bool true)
    else if t = "false" then some (.bool false)
    else if t = "nil" || t = "null" then some .null
    else if 2 ≤ t.data.length &&
        ((headIs qSingle t.data && lastIs qSingle t.data)
          || (headIs qDouble t.data && lastIs qDouble t.data)) then
      some (.str (String.mk ((t.data.drop 1).dropLast)))
    else if specDecimalFull t.data then
      match stringToNumber t with
      | some n => some (.num n)
      | none => some (.str t)
    else some (.str t)

def boolRuleA (t : String) : Option LiquidValue :=
  if t = "true" then some (.bool true)
  else if t = "false" then some (.bool false) else none

def nullRuleA (t : String) : Option LiquidValue :=
  if t = "nil" || t = "null" then some .null else none

def quoteRuleA (t : String) : Option LiquidValue :=
  if (headIs qSingle t.data && lastIs qSingle t.data)
      || (headIs qDouble t.data && lastIs qDouble t.data) then
    some (.str (String.mk ((t.data.drop 1).dropLast)))
  else none

def numberRuleA (t : String) : Option LiquidValue :=
  if t ≠ "" then (stringToNumber t).map .num else none

/-- The classification rule as amended: the same priority cascade, with
the quote rule asking only that the first and the last character be the
same quote (a lone quote counts, yielding the empty string), and the
number rule delegating to the host string-to-number conversion with the
empty token excluded. -/
def parseLiquidValueAmended : Option String → Option LiquidValue
  | none => none
  | some valStr =>
    let t := jsTrim valStr
    some ((boolRuleA t <|> nullRuleA t <|> quoteRuleA t <|> numberRuleA t).getD (.str t))
def c2Live : Node :=
  .elem "div" ["markdown-preview-section"] []
    [.elem "p" ["liquidized"] [] [.text "A"], .elem "p" [] [] [.text "HOST"]]

def c2Repl : Node :=
  .elem "div" [] []
    [.elem "p" ["liquidized"] [] [.text "B"], .elem "p" [] [] [.text "HOST-DIFFERENT"]]

def c9Live : Node := .elem "div" ["markdown-preview-section"] [] []

def c9Repl : Node :=
  .elem "div" ["markdown-preview-section"] []
    [.elem "p" [] [] [], .elem "p" ["liquidized"] [] []]

/-! Reconciler lemmas. -/

theorem updateAllowed_of_unmarked {f : Node} (t : Node)
    (h1 : f.hasClass "markdown-preview-section" = false)
    (h2 : f.hasClass "liquidized" = false) :
    updateAllowed f t = false := by
  simp [updateAllowed, h1, h2]

theorem morphR_unmarked (f t : Node) (he : f.isElem = true)
    (h1 : f.hasClass "liquidized" = false)
    (h2 : f.hasClass "markdown-preview-section" = false) :
    morphR f t = ⟨f, [], []⟩ := by
  cases f with
  | text s => simp [Node.isElem] at he
  | elem ft fc fa fch =>
    have hg : addOrDiscardAllowed (.elem ft fc fa fch) = false := by
      simpa [Node.hasClass, addOrDiscardAllowed] using h1
    cases t with
    | text u => simp [morphR, hg]
    | elem tt tc ta tch =>
      have hu := updateAllowed_of_unmarked (f := .elem ft fc fa fch) (.elem tt tc ta tch) h2 h1
      simp [morphR, hu, hg]

theorem discardRun_gated (fs : List Node) :
    ∀ n ∈ (discardRun fs).2, addOrDiscardAllowed n = true := by
  induction fs with
  | nil => simp [discardRun]
  | cons f fs ih =>
    simp only [discardRun]
    split
    · intro n hn
      rcases List.mem_cons.mp hn with h | h
      · subst h; assumption
      · exact ih n h
    · exact ih

theorem insertRun_gated (ts : List Node) :
    ∀ n ∈ (insertRun ts).2, addOrDiscardAllowed n = true := by
  induction ts with
  | nil => simp [insertRun]
  | cons t ts ih =>
    simp only [insertRun]
    split
    · intro n hn
      rcases List.mem_cons.mp hn with h | h
      · subst h; assumption
      · exact ih n h
    · exact ih

mutual

theorem morphR_ops_gated (f t : Node) :
    ∀ n, n ∈ (morphR f t).removed ∨ n ∈ (morphR f t).inserted → addOrDiscardAllowed n = true
  | n, hn => by
    cases f with
    | text s =>
      cases t with
      | text u => simp [morphR] at hn
      | elem tt tc ta tch =>
        by_cases hg : (addOrDiscardAllowed (Node.text s)
            && addOrDiscardAllowed (Node.elem tt tc ta tch)) = true
        · simp [morphR, hg] at hn
          rcases hn with h | h <;> rw [h]
          · exact ((Bool.and_eq_true _ _).mp hg).1
          · exact ((Bool.and_eq_true _ _).mp hg).2
        · simp [morphR, hg] at hn
    | elem ft fc fa fch =>
      cases t with
      | text u =>
        by_cases hg : (addOrDiscardAllowed (Node.elem ft fc fa fch)
            && addOrDiscardAllowed (Node.text u)) = true
        · simp [morphR, hg] at hn
          rcases hn with h | h <;> rw [h]
          · exact ((Bool.and_eq_true _ _).mp hg).1
          · exact ((Bool.and_eq_true _ _).mp hg).2
        · simp [morphR, hg] at hn
      | elem tt tc ta tch =>
        by_cases h1 : (Node.elem ft fc fa fch : Node) = Node.elem tt tc ta tch
        · simp [morphR, h1] at hn
        · by_cases h2 : ft = tt
          · subst h2
            by_cases h3 : updateAllowed (Node.elem ft fc fa fch) (Node.elem ft tc ta tch) = true
            · simp [morphR, h1, h3] at hn
              exact morphChildren_ops_gated fch tch n hn
            · simp [morphR, h1, h3] at hn
          · by_cases h4 : (addOrDiscardAllowed (Node.elem ft fc fa fch)
                && addOrDiscardAllowed (Node.elem tt tc ta tch)) = true
            · simp [morphR, h1, h2, h4] at hn
              rcases hn with h | h <;> rw [h]
              · exact ((Bool.and_eq_true _ _).mp h4).1
              · exact ((Bool.and_eq_true _ _).mp h4).2
            · simp [morphR, h1, h2, h4] at hn

theorem morphChildren_ops_gated (fs ts : List Node) :
    ∀ n, n ∈ (morphChildren fs ts).2.1 ∨ n ∈ (morphChildren fs ts).2.2 →
      addOrDiscardAllowed n = true
  | n, hn => by
    match fs, ts with
    | [], ts =>
      simp [morphChildren] at hn
      exact insertRun_gated ts n hn
    | f :: fs, [] =>
      simp [morphChildren] at hn
      exact discardRun_gated (f :: fs) n hn
    | f :: fs, t :: ts =>
      simp [morphChildren] at hn
      rcases hn with (h | h) | (h | h)
      · exact morphR_ops_gated f t n (Or.inl h)
      · exact morphChildren_ops_gated fs ts n (Or.inl h)
      · exact morphR_ops_gated f t n (Or.inr h)
      · exact morphChildren_ops_gated fs ts n (Or.inr h)

end

theorem morphR_self (t : Node) : morphR t t = ⟨t, [], []⟩ := by
  cases t with
  | text u => simp [morphR]
  | elem tt tc ta tch => simp [morphR]

theorem morphChildren_self (ts : List Node) : morphChildren ts ts = (ts, [], []) := by
  induction ts with
  | nil => simp [morphChildren, insertRun]
  | cons t ts ih => simp [morphChildren, morphR_self, ih]

theorem insertRun_of_allMarked (ts : List Node) (h : allMarkedList ts = true) :
    insertRun ts = (ts, ts) := by
  induction ts with
  | nil => simp [insertRun]
  | cons t ts ih =>
    rw [allMarkedList, Bool.and_eq_true] at h
    have hg : addOrDiscardAllowed t = true := by
      cases t with
      | text s => rfl
      | elem tt tc ta tch =>
        rw [allMarked, Bool.and_eq_true] at h
        exact h.1.1
    simp [insertRun, hg, ih h.2]

theorem discardRun_keeps_refused (fs : List Node) :
    ∀ n ∈ (discardRun fs).1, addOrDiscardAllowed n = false := by
  induction fs with
  | nil => simp [discardRun]
  | cons f fs ih =>
    simp only [discardRun]
    by_cases hg : addOrDiscardAllowed f = true
    · simp [hg]; exact ih
    · simp only [Bool.not_eq_true] at hg
      simp [hg]
      exact ih

theorem discardRun_of_all_refused (fs : List Node)
    (h : ∀ n ∈ fs, addOrDiscardAllowed n = false) : discardRun fs = (fs, []) := by
  induction fs with
  | nil => simp [discardRun]
  | cons f fs ih =>
    have h1 := h f (List.mem_cons_self f fs)
    simp [discardRun, h1, ih fun n hn => h n (List.mem_cons_of_mem f hn)]

theorem updateAllowed_of_marked {f : Node} (t : Node) (hne : f ≠ t)
    (hliq : f.hasClass "liquidized" = true) : updateAllowed f t = true := by
  simp [updateAllowed, hne, hliq]

mutual

theorem morphR_idem (f t : Node) (h : allMarked t = true) :
    morphR (morphR f t).out t = ⟨(morphR f t).out, [], []⟩ := by
  cases f with
  | text s =>
    cases t with
    | text u => simp [morphR]
    | elem tt tc ta tch =>
      rw [allMarked, Bool.and_eq_true] at h
      have hg : (addOrDiscardAllowed (Node.text s)
          && addOrDiscardAllowed (Node.elem tt tc ta tch)) = true := by
        simp only [addOrDiscardAllowed, h.1, Bool.true_and]
      have e1 : morphR (Node.text s) (Node.elem tt tc ta tch) =
          ⟨Node.elem tt tc ta tch, [Node.text s], [Node.elem tt tc ta tch]⟩ := by
        simp [morphR, hg]
      rw [e1]
      exact morphR_self _
  | elem ft fc fa fch =>
    cases t with
    | text u =>
      by_cases hg : (addOrDiscardAllowed (Node.elem ft fc fa fch)
          && addOrDiscardAllowed (Node.text u)) = true
      · have e1 : morphR (Node.elem ft fc fa fch) (Node.text u) =
            ⟨Node.text u, [Node.elem ft fc fa fch], [Node.text u]⟩ := by
          simp [morphR, hg]
        rw [e1]
        exact morphR_self _
      · have e1 : morphR (Node.elem ft fc fa fch) (Node.text u) =
            ⟨Node.elem ft fc fa fch, [], []⟩ := by
          simp [morphR, hg]
        rw [e1]
        exact e1
    | elem tt tc ta tch =>
      rw [allMarked, Bool.and_eq_true] at h
      by_cases h1 : (Node.elem ft fc fa fch : Node) = Node.elem tt tc ta tch
      · have e1 : morphR (Node.elem ft fc fa fch) (Node.elem tt tc ta tch) =
            ⟨Node.elem ft fc fa fch, [], []⟩ := by
          simp [morphR, h1]
        rw [e1]
        exact e1
      · by_cases h2 : ft = tt
        · subst h2
          by_cases h3 : updateAllowed (Node.elem ft fc fa fch) (Node.elem ft tc ta tch) = true
          · have e1 : morphR (Node.elem ft fc fa fch) (Node.elem ft tc ta tch) =
                ⟨Node.elem ft tc ta (morphChildren fch tch).1,
                  (morphChildren fch tch).2.1, (morphChildren fch tch).2.2⟩ := by
              simp [morphR, h1, h3]
            rw [e1]
            by_cases hb2 : (Node.elem ft tc ta (morphChildren fch tch).1 : Node) =
                Node.elem ft tc ta tch
            · simp [morphR, hb2]
            · have hu2 : updateAllowed (Node.elem ft tc ta (morphChildren fch tch).1)
                  (Node.elem ft tc ta tch) = true := by
                apply updateAllowed_of_marked _ hb2
                simp only [Node.hasClass, h.1]
              have e2 : morphR (Node.elem ft tc ta (morphChildren fch tch).1)
                  (Node.elem ft tc ta tch) =
                  ⟨Node.elem ft tc ta (morphChildren (morphChildren fch tch).1 tch).1,
                    (morphChildren (morphChildren fch tch).1 tch).2.1,
                    (morphChildren (morphChildren fch tch).1 tch).2.2⟩ := by
                simp [morphR, hb2, hu2]
              rw [e2, morphChildren_idem fch tch h.2]
          · have e1 : morphR (Node.elem ft fc fa fch) (Node.elem ft tc ta tch) =
                ⟨Node.elem ft fc fa fch, [], []⟩ := by
              simp [morphR, h1, h3]
            rw [e1]
            exact e1
        · by_cases h4 : (addOrDiscardAllowed (Node.elem ft fc fa fch)
              && addOrDiscardAllowed (Node.elem tt tc ta tch)) = true
          · have e1 : morphR (Node.elem ft fc fa fch) (Node.elem tt tc ta tch) =
                ⟨Node.elem tt tc ta tch, [Node.elem ft fc fa fch], [Node.elem tt tc ta tch]⟩ := by
              simp [morphR, h1, h2, h4]
            rw [e1]
            exact morphR_self _
          · have e1 : morphR (Node.elem ft fc fa fch) (Node.elem tt tc ta tch) =
                ⟨Node.elem ft fc fa fch, [], []⟩ := by
              simp [morphR, h1, h2, h4]
            rw [e1]
            exact e1
termination_by structural t

theorem morphChildren_idem (fs ts : List Node) (h : allMarkedList ts = true) :
    morphChildren (morphChildren fs ts).1 ts = ((morphChildren fs ts).1, [], []) := by
  match fs, ts with
  | [], ts =>
    rw [morphChildren, insertRun_of_allMarked ts h]
    exact morphChildren_self ts
  | f :: fs, [] =>
    rw [morphChildren]
    have hkeep := discardRun_keeps_refused (f :: fs)
    cases hd : discardRun (f :: fs) with
    | mk kept removed =>
      rw [hd] at hkeep
      cases kept with
      | nil => simp [morphChildren, insertRun]
      | cons k ks =>
        rw [morphChildren, discardRun_of_all_refused _ hkeep]
  | f :: fs, t :: ts =>
    rw [allMarkedList, Bool.and_eq_true] at h
    have e1 : morphChildren (f :: fs) (t :: ts) =
        ((morphR f t).out :: (morphChildren fs ts).1,
          (morphR f t).removed ++ (morphChildren fs ts).2.1,
          (morphR f t).inserted ++ (morphChildren fs ts).2.2) := by
      rw [morphChildren]
    rw [e1]
    have e2 : morphChildren ((morphR f t).out :: (morphChildren fs ts).1) (t :: ts) =
        ((morphR (morphR f t).out t).out :: (morphChildren (morphChildren fs ts).1 ts).1,
          (morphR (morphR f t).out t).removed ++ (morphChildren (morphChildren fs ts).1 ts).2.1,
          (morphR (morphR f t).out t).inserted
            ++ (morphChildren (morphChildren fs ts).1 ts).2.2) := by
      rw [morphChildren]
    rw [e2, morphR_idem f t h.1, morphChildren_idem fs ts h.2]
    rfl
termination_by structural ts

end

/-- Claim C1: after reconciliation, a live element that is not the root
container (by its class) and does not carry the reconcilable mark is
returned byte for byte unchanged together with its whole subtree,
whatever the replacement; and every node the walk removes or inserts
passes the add/discard gate, so an unmarked element is never removed or
inserted. -/
theorem reconcile_containment :
    (∀ f t : Node, f.isElem = true → f.hasClass "liquidized" = false →
      f.hasClass "markdown-preview-section" = false → morph f t = f)
    ∧ (∀ f t n : Node, n ∈ (morphR f t).removed → n.isElem = true →
        n.hasClass "liquidized" = true)
    ∧ (∀ f t n : Node, n ∈ (morphR f t).inserted → n.isElem = true →
        n.hasClass "liquidized" = true) := by
  refine ⟨?_, ?_, ?_⟩
  · intro f t he h1 h2
    rw [morph, morphR_unmarked f t he h1 h2]
  · intro f t n hn he
    have hg := morphR_ops_gated f t n (Or.inl hn)
    cases n with
    | text s => simp [Node.isElem] at he
    | elem nt nc na nch => simpa [addOrDiscardAllowed, Node.hasClass] using hg
  · intro f t n hn he
    have hg := morphR_ops_gated f t n (Or.inr hn)
    cases n with
    | text s => simp [Node.isElem] at he
    | elem nt nc na nch => simpa [addOrDiscardAllowed, Node.hasClass] using hg

theorem reconcile_containment_witness :
    (Node.isElem (.elem "p" [] [] [.text "HOST"]) = true
      ∧ Node.hasClass "liquidized" (.elem "p" [] [] [.text "HOST"]) = false
      ∧ Node.hasClass "markdown-preview-section" (.elem "p" [] [] [.text "HOST"]) = false)
    ∧ morph (.elem "p" [] [] [.text "HOST"]) (.elem "p" [] [] [.text "CHANGED"]) =
        .elem "p" [] [] [.text "HOST"] :=
  ⟨⟨by decide, by decide, by decide⟩,
    reconcile_containment.1 _ _ (by decide) (by decide) (by decide)⟩

/-- Claim C2: in the reference scenario, after reconciliation the first
paragraph reads B and the second still reads HOST. -/
theorem reconcile_scenario :
    ((morph c2Live c2Repl).childAt 0).map Node.textContent = some "B"
    ∧ ((morph c2Live c2Repl).childAt 1).map Node.textContent = some "HOST" := by
  constructor <;> decide

/-- Claim C9, counterexample: a second reconciliation with the same
replacement can mutate further - a suppressed insertion of an unmarked
replacement element shifts the positional pairing, so the marked element
inserted by the first call is paired against the unmarked one on the
second call and is rewritten. -/
theorem reconcile_not_idempotent :
    morph (morph c9Live c9Repl) c9Repl ≠ morph c9Live c9Repl := by decide

/-- Claim C9 as amended: when every element of the replacement tree
carries the reconcilable mark - the shape the plugin produces, marking
the container and all its descendants before rendering - the second
call returns the live tree unchanged and performs no insertion or
removal. -/
theorem reconcile_idempotent_marked (f t : Node) (h : allMarked t = true) :
    morphR (morph f t) t = ⟨morph f t, [], []⟩ :=
  morphR_idem f t h

theorem reconcile_idempotent_marked_witness :
    allMarked (.elem "div" ["liquidized"] [] [.elem "p" ["liquidized"] [] [.text "x"]]) = true
    ∧ morphR
        (morph (.elem "div" ["markdown-preview-section"] [] [.text "old"])
          (.elem "div" ["liquidized"] [] [.elem "p" ["liquidized"] [] [.text "x"]]))
        (.elem "div" ["liquidized"] [] [.elem "p" ["liquidized"] [] [.text "x"]]) =
      ⟨morph (.elem "div" ["markdown-preview-section"] [] [.text "old"])
          (.elem "div" ["liquidized"] [] [.elem "p" ["liquidized"] [] [.text "x"]]), [], []⟩ :=
  ⟨by decide, reconcile_idempotent_marked _ _ (by decide)⟩

/-- Claim C10: update eligibility keys on the fixed root class, not on
node identity - any element whose class list contains the root class is
update-eligible against any unequal replacement, with or without the
mark, wherever it sits; and an element carrying neither the root class
nor the mark is never update-eligible. -/
theorem update_gate_by_class :
    (∀ f t : Node, f.hasClass "markdown-preview-section" = true → f ≠ t →
      updateAllowed f t = true)
    ∧ (∀ f t : Node, f.hasClass "markdown-preview-section" = false →
        f.hasClass "liquidized" = false → updateAllowed f t = false) := by
  constructor
  · intro f t hc hne
    simp [updateAllowed, hne, hc]
  · intro f t h1 h2
    exact updateAllowed_of_unmarked t h1 h2

theorem update_gate_by_class_witness :
    (Node.hasClass "markdown-preview-section"
        (.elem "section" ["markdown-preview-section"] [] []) = true
      ∧ (Node.elem "section" ["markdown-preview-section"] [] [] : Node) ≠ .elem "section" [] [] []
      ∧ updateAllowed (.elem "section" ["markdown-preview-section"] [] [])
          (.elem "section" [] [] []) = true)
    ∧ (Node.hasClass "markdown-preview-section" (.elem "div" ["host"] [] []) = false
      ∧ Node.hasClass "liquidized" (.elem "div" ["host"] [] []) = false
      ∧ updateAllowed (.elem "div" ["host"] [] []) (.elem "div" [] [] [.text "r"]) = false) :=
  ⟨⟨by decide, by decide, update_gate_by_class.1 _ _ (by decide) (by decide)⟩,
    ⟨by decide, by decide, update_gate_by_class.2 _ _ (by decide) (by decide)⟩⟩

/-! Inference-engine lemmas. -/

/-- Claim C3: the failing input.  A variable name that is an unbalanced
group makes the dynamically built pattern invalid, so compilation
raises instead of returning an empty result for that name. -/
theorem find_values_throws_on_special_name :
    regexFragmentValid "(" = false ∧ findLiquidVariableValues ["("] "" = .error "(" :=
  ⟨by decide, rfl⟩

/-- Claim C5, counterexample: a lone quote character is not a token
wrapped in a matching pair of quotes, and a hexadecimal token is not a
decimal number, yet the implementation classifies the first as the
empty string and the second as a number. -/
theorem parse_value_spec_divergence :
    parseLiquidValue (some (String.mk [qSingle])) = some (.str "")
    ∧ parseLiquidValueSpec (some (String.mk [qSingle])) = some (.str (String.mk [qSingle]))
    ∧ parseLiquidValue (some "0x10") = some (.num (jsInt 16))
    ∧ parseLiquidValueSpec (some "0x10") = some (.str "0x10") := by
  decide

/-- Claim C5 as amended: the classification cascade of the
implementation, phrased as a priority list of rules - boolean keyword,
null keyword, first-and-last-character quote rule, host numeric
conversion with the empty token excluded, raw trimmed string - agrees
with `parseLiquidValue` on every input. -/
theorem parse_value_amended (os : Option String) :
    parseLiquidValue os = parseLiquidValueAmended os := by
  cases os with
  | none => rfl
  | some s =>
    simp only [parseLiquidValue, parseLiquidValueAmended]
    by_cases h1 : jsTrim s = "true"
    · simp [boolRuleA, h1]
    · by_cases h2 : jsTrim s = "false"
      · simp [boolRuleA, h1, h2]
      · by_cases h3 : jsTrim s = "nil" ∨ jsTrim s = "null"
        · simp [boolRuleA, nullRuleA, h1, h2, h3]
        · by_cases h4 : (headIs qSingle (jsTrim s).data = true
                ∧ lastIs qSingle (jsTrim s).data = true)
              ∨ (headIs qDouble (jsTrim s).data = true ∧ lastIs qDouble (jsTrim s).data = true)
          · simp [boolRuleA, nullRuleA, quoteRuleA, h1, h2, h3, h4]
          · cases hn : stringToNumber (jsTrim s) with
            | some n =>
              by_cases h5 : jsTrim s = ""
              · rw [h5] at h4 hn ⊢
                simp [boolRuleA, nullRuleA, quoteRuleA, numberRuleA, h4, hn, headIs]
              · simp [boolRuleA, nullRuleA, quoteRuleA, numberRuleA, h1, h2, h3, h4, h5, hn]
            | none =>
              by_cases h5 : jsTrim s = ""
              · rw [h5] at hn
                simp [stringToNumber, jsTrim, jsInt] at hn
              · simp [boolRuleA, nullRuleA, quoteRuleA, numberRuleA, h1, h2, h3, h4, h5, hn]

theorem insertValue_nodup {l : List LiquidValue} (x : LiquidValue) (h : l.Nodup) :
    (insertValue l x).Nodup := by
  unfold insertValue
  split
  · exact h
  · rename_i hx
    simpa [List.nodup_append] using ⟨h, fun hmem => hx hmem⟩

theorem foldl_step_nodup {β : Type} (step : List LiquidValue → β → List LiquidValue)
    (hstep : ∀ acc b, acc.Nodup → (step acc b).Nodup) :
    ∀ (xs : List β) (acc : List LiquidValue), acc.Nodup → (xs.foldl step acc).Nodup := by
  intro xs
  induction xs with
  | nil => intro acc h; exact h
  | cons x xs ih => intro acc h; exact ih (step acc x) (hstep acc x h)

theorem addParsed_nodup (acc : List LiquidValue) (tok : String) (h : acc.Nodup) :
    (addParsed acc tok).Nodup := by
  unfold addParsed
  split
  · exact insertValue_nodup _ h
  · exact h

theorem analyzeOne_nodup (v tpl : String) : (analyzeOne v tpl).Nodup := by
  unfold analyzeOne
  apply foldl_step_nodup
  · intro acc blk hacc
    apply foldl_step_nodup
    · intro acc2 w hacc2
      exact foldl_step_nodup _ (fun a b hh => addParsed_nodup a b hh) _ _ hacc2
    · exact hacc
  · split
    · exact insertValue_nodup _ (insertValue_nodup _
        (foldl_step_nodup _ (fun a b hh => addParsed_nodup a b hh) _ _ List.nodup_nil))
    · exact foldl_step_nodup _ (fun a b hh => addParsed_nodup a b hh) _ _ List.nodup_nil

/-- Claim C8: collected values are deduplicated by parsed kind and
value - the evidence list never holds a duplicate, a number and the
string rendering the same digits stay distinct, and in the two-equality
scenario the two strings appear in first-occurrence order, each once
although the first comparison is repeated. -/
theorem possible_values_dedup :
    (∀ v tpl : String, (analyzeOne v tpl).Nodup)
    ∧ insertValue [.num (jsInt 1)] (.str "1") = [.num (jsInt 1), .str "1"]
    ∧ analyzeOne "v"
        "\x7b% if v == \x27x\x27 %\x7d\x7b% if v == \x27y\x27 %\x7d\x7b% if v == \x27x\x27 %\x7d" =
      [.str "x", .str "y"] :=
  ⟨analyzeOne_nodup, by decide, by decide⟩

/-! Suffix bookkeeping for the scanners. -/

theorem litP_eq_some {lit : List Char} {p r : ScanPos} (h : litP lit p = some r) :
    lit <+: p.2 ∧ r.2 = p.2.drop lit.length := by
  unfold litP at h
  split at h
  · rename_i hpre
    cases h
    exact ⟨List.isPrefixOf_iff_prefix.mp hpre, rfl⟩
  · cases h

theorem litP_suffix {lit : List Char} {p r : ScanPos} (h : litP lit p = some r) :
    r.2 <:+ p.2 := by
  rw [(litP_eq_some h).2]
  exact List.drop_suffix _ _

theorem wsStar_suffix (p : ScanPos) : (wsStar p).2 <:+ p.2 :=
  ⟨p.2.takeWhile isJsSpace, List.takeWhile_append_dropWhile _ _⟩

theorem wsPlus_suffix {p r : ScanPos} (h : wsPlus p = some r) : r.2 <:+ p.2 := by
  unfold wsPlus at h
  split at h
  · split at h
    · cases h
      exact wsStar_suffix p
    · cases h
  · cases h

theorem dashOpt_suffix (p : ScanPos) : (dashOpt p).2 <:+ p.2 := by
  unfold dashOpt
  cases hp : p.2 with
  | nil =>
    show p.2 <:+ ([] : List Char)
    rw [hp]
  | cons c cs =>
    by_cases hc : (c == '-') = true
    · simp only [hc, if_true]
      exact List.suffix_cons _ _
    · simp only [hc, Bool.false_eq_true, if_false]
      show p.2 <:+ c :: cs
      rw [hp]

/-- The name occurs somewhere in the text: some suffix starts with it. -/
def OccursIn (v cs : List Char) : Prop := ∃ sfx, sfx <:+ cs ∧ v <+: sfx

theorem occursIn_of_prefix {v cs : List Char} (h : v <+: cs) : OccursIn v cs :=
  ⟨cs, List.suffix_refl _, h⟩

theorem OccursIn.mono {v cs cs' : List Char} (hs : cs' <:+ cs) :
    OccursIn v cs' → OccursIn v cs := fun ⟨sfx, h1, h2⟩ => ⟨sfx, h1.trans hs, h2⟩

theorem boolCond_occurs {v : List Char} {p : ScanPos} {r : ScanPos}
    (h : boolCond v p = some r) : OccursIn v p.2 := by
  unfold boolCond at h
  split at h
  · rename_i p' hl
    exact occursIn_of_prefix (litP_eq_some hl).1
  · cases h

theorem boolNotCond_occurs {v : List Char} {p r : ScanPos}
    (h : boolNotCond v p = some r) : OccursIn v p.2 := by
  unfold boolNotCond at h
  rcases (Option.orElse_eq_some _ _ _).mp h with h' | ⟨_, h'⟩
  · rcases Option.bind_eq_some.mp h' with ⟨pn, hn, h''⟩
    rcases Option.bind_eq_some.mp h'' with ⟨pn2, hn2, h3⟩
    exact ((boolCond_occurs h3).mono (wsPlus_suffix hn2)).mono (litP_suffix hn)
  · exact boolCond_occurs h'

theorem boolKw_occurs {v : List Char} {p r : ScanPos}
    (h : boolKw v p = some r) : OccursIn v p.2 := by
  unfold boolKw at h
  rcases (Option.orElse_eq_some _ _ _).mp h with h' | ⟨_, h'⟩
  · rcases Option.bind_eq_some.mp h' with ⟨pk, hk, h''⟩
    rcases Option.bind_eq_some.mp h'' with ⟨pk2, hk2, h3⟩
    exact ((boolNotCond_occurs h3).mono (wsPlus_suffix hk2)).mono (litP_suffix hk)
  · rcases (Option.orElse_eq_some _ _ _).mp h' with h'' | ⟨_, h''⟩ <;>
    · rcases Option.bind_eq_some.mp h'' with ⟨pk, hk, h3⟩
      rcases Option.bind_eq_some.mp h3 with ⟨pk2, hk2, h4⟩
      exact ((boolNotCond_occurs h4).mono (wsPlus_suffix hk2)).mono (litP_suffix hk)

theorem boolM_occurs {v : List Char} {prev : Option Char} {cs : List Char} {r : Unit × Nat}
    (h : boolM v prev cs = some r) : OccursIn v cs := by
  unfold boolM at h
  rcases Option.bind_eq_some.mp h with ⟨p1, h1, h2⟩
  rcases Option.map_eq_some'.mp h2 with ⟨pe, he, _⟩
  have : OccursIn v (wsStar (dashOpt p1)).2 := boolKw_occurs he
  exact ((this.mono (wsStar_suffix _)).mono (dashOpt_suffix _)).mono (litP_suffix h1)

theorem compM_occurs {v : List Char} {prev : Option Char} {cs : List Char} {r : String × Nat}
    (h : compM v prev cs = some r) : OccursIn v cs := by
  unfold compM at h
  split at h
  · split at h
    · rename_i p1 hl
      exact occursIn_of_prefix (litP_eq_some hl).1
    · cases h
  · cases h

theorem caseM_occurs {v : List Char} {prev : Option Char} {cs : List Char}
    {r : List Char × Nat} (h : caseM v prev cs = some r) : OccursIn v cs := by
  unfold caseM at h
  rcases Option.bind_eq_some.mp h with ⟨p1, h1, h'⟩
  rcases Option.bind_eq_some.mp h' with ⟨p4, h4, h''⟩
  rcases Option.bind_eq_some.mp h'' with ⟨p5, h5, h3⟩
  rcases Option.bind_eq_some.mp h3 with ⟨p6, h6, _⟩
  have : OccursIn v p5.2 := occursIn_of_prefix (litP_eq_some h6).1
  exact ((((this.mono (wsPlus_suffix h5)).mono (litP_suffix h4)).mono
    (wsStar_suffix _)).mono (dashOpt_suffix _)).mono (litP_suffix h1)

theorem scanAll_eq_nil {α : Type} (M : Option Char → List Char → Option (α × Nat))
    (prev : Option Char) (skip : Nat) (cs : List Char)
    (h : ∀ pr sfx, sfx <:+ cs → M pr sfx = none) :
    scanAll M prev skip cs = [] := by
  induction cs generalizing prev skip with
  | nil => cases skip <;> rfl
  | cons c cs ih =>
    have h2 : ∀ pr sfx, sfx <:+ cs → M pr sfx = none :=
      fun pr sfx hs => h pr sfx (hs.trans (List.suffix_cons c cs))
    cases skip with
    | zero =>
      rw [scanAll, h prev (c :: cs) (List.suffix_refl _)]
      exact ih (some c) 0 h2
    | succ skip =>
      rw [scanAll]
      exact ih (some c) skip h2

/-- A suffix of the template is a drop, so absence stated over drops
covers all suffixes. -/
theorem not_prefix_of_suffix {v l sfx : List Char}
    (hnot : ∀ k : Nat, k ≤ l.length → ¬ v <+: l.drop k)
    (hs : sfx <:+ l) : ¬ v <+: sfx := by
  obtain ⟨t, ht⟩ := hs
  have : sfx = l.drop t.length := by rw [← ht, List.drop_left]
  rw [this]
  exact hnot t.length (by rw [← ht]; simp)

theorem not_occursIn {v l : List Char}
    (hnot : ∀ k : Nat, k ≤ l.length → ¬ v <+: l.drop k) : ∀ sfx, sfx <:+ l → ¬ OccursIn v sfx := by
  rintro sfx hs ⟨sfx2, hs2, hp⟩
  exact not_prefix_of_suffix hnot (hs2.trans hs) hp

theorem analyzeOne_of_absent (v tpl : String)
    (hnot : ∀ k : Nat, k ≤ tpl.data.length → ¬ v.data <+: tpl.data.drop k) :
    analyzeOne v tpl = [] := by
  have hcomp : comparisonCaptures v tpl = [] := by
    apply scanAll_eq_nil
    intro pr sfx hs
    cases hM : compM v.data pr sfx with
    | none => rfl
    | some r => exact absurd (compM_occurs hM) (not_occursIn hnot sfx hs)
  have hbool : booleanHit v tpl = false := by
    unfold booleanHit
    rw [scanAll_eq_nil]
    · rfl
    · intro pr sfx hs
      cases hM : boolM v.data pr sfx with
      | none => rfl
      | some r => exact absurd (boolM_occurs hM) (not_occursIn hnot sfx hs)
  have hcase : caseBlocks v tpl = [] := by
    apply scanAll_eq_nil
    intro pr sfx hs
    cases hM : caseM v.data pr sfx with
    | none => rfl
    | some r => exact absurd (caseM_occurs hM) (not_occursIn hnot sfx hs)
  unfold analyzeOne
  rw [hcomp, hbool, hcase]
  simp

theorem word_ne (c x : Char) (hc : isWordChar c = true) (hx : isWordChar x = false) :
    (c == x) = false := by
  cases h : c == x
  · rfl
  · simp [eq_of_beq h, hx] at hc

theorem fragScan_word (cs : List Char) (h : ∀ c ∈ cs, isWordChar c = true) :
    fragScan cs 0 false = true := by
  induction cs with
  | nil => rfl
  | cons c cs ih =>
    have hc := h c (List.mem_cons_self c cs)
    have h1 := word_ne c bslashC hc (by decide)
    have h2 := word_ne c '(' hc (by decide)
    have h3 := word_ne c ')' hc (by decide)
    have h4 := word_ne c '[' hc (by decide)
    rw [fragScan.eq_def]
    simp only [h1, h2, h3, h4, Bool.false_eq_true, if_false]
    exact ih fun d hd => h d (List.mem_cons_of_mem c hd)

theorem wordIdent_fragmentValid (v : String) (hv : isWordIdent v = true) :
    regexFragmentValid v = true := by
  unfold regexFragmentValid
  unfold isWordIdent at hv
  rw [Bool.and_eq_true] at hv
  exact fragScan_word _ fun c hc => List.all_eq_true.mp hv.2 c hc

/-- Claim C6, counterexample: for a variable that appears nowhere in the
template the evidence list is empty, but the inferred kind is the
default string, not unknown - no unknown kind exists in the
implementation. -/
theorem infer_absent_not_unknown :
    findLiquidVariableValues ["x"] "hello world" = .ok [("x", [])]
    ∧ typeOfVar none [] = "string" ∧ ¬ typeOfVar none [] = "unknown" :=
  ⟨rfl, rfl, by decide⟩

/-- Claim C6 as amended: for every identifier-shaped variable that
occurs nowhere in the template, the evidence list is empty and the
inferred kind without metadata is the default string (the spec says
unknown, a kind the implementation does not have); with a stored
metadata value the seeded kind wins exactly as the claim states. -/
theorem infer_absent_amended (v tpl : String) (hv : isWordIdent v = true)
    (hnot : ∀ k : Nat, k ≤ tpl.data.length → ¬ v.data <+: tpl.data.drop k) :
    findLiquidVariableValues [v] tpl = .ok [(v, [])]
    ∧ typeOfVar none [] = "string"
    ∧ (∀ cv : FmValue, typeOfVar (some cv) [] = metadataSeededKind cv) := by
  refine ⟨?_, rfl, ?_⟩
  · unfold findLiquidVariableValues
    rw [show ([v].find? fun n => !regexFragmentValid n) = none by
      simp [List.find?, wordIdent_fragmentValid v hv]]
    show Except.ok [(v, analyzeOne v tpl)] = Except.ok [(v, [])]
    rw [analyzeOne_of_absent v tpl hnot]
  · intro cv; cases cv <;> rfl

theorem infer_absent_amended_witness :
    isWordIdent "x" = true
    ∧ (∀ k : Nat, k ≤ "hello world".data.length → ¬ "x".data <+: "hello world".data.drop k)
    ∧ findLiquidVariableValues ["x"] "hello world" = .ok [("x", [])] :=
  ⟨by decide, by decide, (infer_absent_amended "x" "hello world" (by decide) (by decide)).1⟩

/-! Position bookkeeping for exact scans. -/

theorem lastO_cons (c : Char) (a : List Char) (prev : Option Char) :
    lastO (c :: a) prev = lastO a (some c) := by
  unfold lastO
  cases a with
  | nil => rfl
  | cons d ds =>
    rw [List.getLast?_cons_cons]
    cases h : (d :: ds).getLast? with
    | some e => rfl
    | none => simp at h

theorem lastO_append (a : List Char) (c : Char) (pre : List Char) (prev : Option Char) :
    lastO (a ++ c :: pre) prev = lastO pre (some c) := by
  unfold lastO
  rw [List.getLast?_append]
  cases pre with
  | nil => rfl
  | cons d ds =>
    rw [List.getLast?_cons_cons]
    cases h : (d :: ds).getLast? with
    | some e => rfl
    | none => simp at h

theorem scanAll_eq_nil_tracked {α : Type} (M : Option Char → List Char → Option (α × Nat))
    (prev : Option Char) (skip : Nat) (cs : List Char)
    (h : ∀ a2 b2, cs = a2 ++ b2 → M (lastO a2 prev) b2 = none) :
    scanAll M prev skip cs = [] := by
  induction cs generalizing prev skip with
  | nil => cases skip <;> rfl
  | cons c cs ih =>
    have h2 : ∀ a2 b2, cs = a2 ++ b2 → M (lastO a2 (some c)) b2 = none := by
      intro a2 b2 he
      have := h (c :: a2) b2 (by rw [he, List.cons_append])
      rwa [lastO_cons] at this
    cases skip with
    | zero =>
      have h0 := h [] (c :: cs) rfl
      rw [show lastO [] prev = prev from rfl] at h0
      rw [scanAll, h0]
      exact ih (some c) 0 h2
    | succ skip =>
      rw [scanAll]
      exact ih (some c) skip h2

theorem scanAll_ne_nil {α : Type} (M : Option Char → List Char → Option (α × Nat))
    (prev : Option Char) (a b : List Char)
    (hnil : ∀ pr, M pr [] = none)
    (hM : ∃ x, M (lastO a prev) b = some x) :
    scanAll M prev 0 (a ++ b) ≠ [] := by
  induction a generalizing prev with
  | nil =>
    obtain ⟨x, hx⟩ := hM
    cases b with
    | nil => rw [hnil] at hx; cases hx
    | cons c cs =>
      show scanAll M prev 0 (c :: cs) ≠ []
      rw [show lastO [] prev = prev from rfl] at hx
      rw [scanAll, hx]
      simp
  | cons c a ih =>
    rw [List.cons_append, scanAll]
    cases hM0 : M prev (c :: (a ++ b)) with
    | some r => simp
    | none =>
      rw [lastO_cons] at hM
      exact ih (some c) hM

theorem scanAll_single {α : Type} (M : Option Char → List Char → Option (α × Nat))
    (hnil : ∀ pr, M pr [] = none) (x : α) (n : Nat) (b : List Char) :
    ∀ (a : List Char) (prev : Option Char) (skip : Nat), skip ≤ a.length →
      M (lastO a prev) b = some (x, n) →
      (∀ a2 b2, a ++ b = a2 ++ b2 → a2.length ≠ a.length → M (lastO a2 prev) b2 = none) →
      scanAll M prev skip (a ++ b) = [x] := by
  intro a
  induction a with
  | nil =>
    intro prev skip hskip hM huniq
    have hs0 : skip = 0 := Nat.le_zero.mp hskip
    subst hs0
    cases b with
    | nil => rw [hnil] at hM; cases hM
    | cons c cs =>
      show scanAll M prev 0 (c :: cs) = [x]
      rw [show lastO [] prev = prev from rfl] at hM
      rw [scanAll, hM]
      show x :: scanAll M (some c) (n - 1) cs = [x]
      have htail : scanAll M (some c) (n - 1) cs = [] := by
        apply scanAll_eq_nil_tracked
        intro a2 b2 he
        have := huniq (c :: a2) b2 (by simp [he]) (by simp)
        rwa [lastO_cons] at this
      rw [htail]
  | cons c a ih =>
    intro prev skip hskip hM huniq
    show scanAll M prev skip (c :: (a ++ b)) = [x]
    have hM2 : M (lastO a (some c)) b = some (x, n) := by rwa [lastO_cons] at hM
    have huniq2 : ∀ a2 b2, a ++ b = a2 ++ b2 → a2.length ≠ a.length →
        M (lastO a2 (some c)) b2 = none := by
      intro a2 b2 he hne
      have := huniq (c :: a2) b2 (by simp [he]) (by simpa using hne)
      rwa [lastO_cons] at this
    cases skip with
    | zero =>
      have h0 := huniq [] (c :: (a ++ b)) rfl (by simp)
      rw [show lastO [] prev = prev from rfl] at h0
      rw [scanAll, h0]
      exact ih (some c) 0 (Nat.zero_le _) hM2 huniq2
    | succ skip =>
      rw [scanAll]
      exact ih (some c) skip (Nat.le_of_succ_le_succ hskip) hM2 huniq2

theorem scanAll_pair {α : Type} (M : Option Char → List Char → Option (α × Nat))
    (hnil : ∀ pr, M pr [] = none) (x1 x2 : α) (n1 n2 : Nat) (b2 : List Char)
    (hn1 : 1 ≤ n1) :
    ∀ (a1 mid : List Char) (prev : Option Char), n1 ≤ mid.length →
      M (lastO a1 prev) (mid ++ b2) = some (x1, n1) →
      M (lastO (a1 ++ mid) prev) b2 = some (x2, n2) →
      (∀ a2 c2, a1 ++ (mid ++ b2) = a2 ++ c2 → a2.length ≠ a1.length →
        a2.length ≠ a1.length + mid.length → M (lastO a2 prev) c2 = none) →
      scanAll M prev 0 (a1 ++ (mid ++ b2)) = [x1, x2] := by
  intro a1
  induction a1 with
  | nil =>
    intro mid prev hmid hM1 hM2 huniq
    cases mid with
    | nil => exact absurd (Nat.le_trans hn1 hmid) (by simp)
    | cons c mid =>
      show scanAll M prev 0 (c :: (mid ++ b2)) = [x1, x2]
      rw [show lastO [] prev = prev from rfl, List.cons_append] at hM1
      rw [scanAll, hM1]
      show x1 :: scanAll M (some c) (n1 - 1) (mid ++ b2) = [x1, x2]
      have htail : scanAll M (some c) (n1 - 1) (mid ++ b2) = [x2] := by
        apply scanAll_single M hnil x2 n2 b2 mid (some c) (n1 - 1)
          (by simpa using Nat.sub_le_sub_right hmid 1)
        · have : lastO ([] ++ c :: mid) prev = lastO mid (some c) := lastO_append [] c mid prev
          rw [← this]
          simpa using hM2
        · intro a2 c2 he hne
          have := huniq (c :: a2) c2 (by simp [he]) (by simp)
            (by simp only [List.length_cons, List.length_nil]; omega)
          rwa [lastO_cons] at this
      rw [htail]
  | cons c a1 ih =>
    intro mid prev hmid hM1 hM2 huniq
    show scanAll M prev 0 (c :: (a1 ++ (mid ++ b2))) = [x1, x2]
    have hM1b : M (lastO a1 (some c)) (mid ++ b2) = some (x1, n1) := by
      rwa [lastO_cons] at hM1
    have hM2b : M (lastO (a1 ++ mid) (some c)) b2 = some (x2, n2) := by
      rw [show (c :: a1) ++ mid = c :: (a1 ++ mid) from rfl, lastO_cons] at hM2
      exact hM2
    have huniq2 : ∀ a2 c2, a1 ++ (mid ++ b2) = a2 ++ c2 → a2.length ≠ a1.length →
        a2.length ≠ a1.length + mid.length → M (lastO a2 (some c)) c2 = none := by
      intro a2 c2 he hne1 hne2
      have := huniq (c :: a2) c2 (by simp [he]) (by simpa using hne1)
        (by simp only [List.length_cons]; omega)
      rwa [lastO_cons] at this
    have h0 := huniq [] (c :: (a1 ++ (mid ++ b2))) rfl (by simp)
      (by simp only [List.length_cons, List.length_nil]; omega)
    rw [show lastO [] prev = prev from rfl] at h0
    rw [scanAll, h0]
    exact ih mid (some c) hmid hM1b hM2b huniq2

theorem litP_append (lit : List Char) (pr : Option Char) (r : List Char) :
    litP lit (pr, lit ++ r) = some (lastO lit pr, r) := by
  unfold litP
  rw [if_pos (List.isPrefixOf_iff_prefix.mpr (List.prefix_append lit r))]
  simp [List.drop_left]

theorem litP_decomp {lit : List Char} {p r : ScanPos} (h : litP lit p = some r) :
    p.2 = lit ++ r.2 := by
  obtain ⟨hp, hr⟩ := litP_eq_some h
  obtain ⟨t, ht⟩ := hp
  rw [hr, ← ht, List.drop_left]

theorem wsStar_decomp (p : ScanPos) :
    p.2 = p.2.takeWhile isJsSpace ++ (wsStar p).2
    ∧ ∀ c ∈ p.2.takeWhile isJsSpace, isJsSpace c = true :=
  ⟨(List.takeWhile_append_dropWhile isJsSpace p.2).symm,
    fun _ hc => List.mem_takeWhile_imp hc⟩

theorem wsPlus_decomp {p r : ScanPos} (h : wsPlus p = some r) :
    ∃ W, p.2 = W ++ r.2 ∧ W ≠ [] ∧ ∀ c ∈ W, isJsSpace c = true := by
  unfold wsPlus at h
  split at h
  · rename_i c cs hcs
    split at h
    · rename_i hc
      cases h
      refine ⟨p.2.takeWhile isJsSpace, (wsStar_decomp p).1, ?_, (wsStar_decomp p).2⟩
      rw [hcs, List.takeWhile_cons, if_pos hc]
      simp
    · cases h
  · cases h

theorem dashOpt_decomp (p : ScanPos) :
    ∃ D, p.2 = D ++ (dashOpt p).2 ∧ (D = [] ∨ D = ['-']) := by
  unfold dashOpt
  cases hp : p.2 with
  | nil => exact ⟨[], by simp [hp], Or.inl rfl⟩
  | cons c cs =>
    by_cases hc : (c == '-') = true
    · refine ⟨['-'], ?_, Or.inr rfl⟩
      simp only [hc, if_true, hp]
      rw [show c = '-' from eq_of_beq hc]
      rfl
    · refine ⟨[], ?_, Or.inl rfl⟩
      simp only [hc, Bool.false_eq_true, if_false, hp]
      simp

theorem isWordO_lastO_of_ident {v : List Char} (pr : Option Char)
    (hne : v ≠ []) (hall : ∀ c ∈ v, isWordChar c = true) :
    isWordO (lastO v pr) = true := by
  cases hg : v.getLast? with
  | some c =>
    unfold lastO
    rw [hg]
    exact hall c (List.mem_of_mem_getLast? hg)
  | none =>
    cases v with
    | nil => exact absurd rfl hne
    | cons d ds => simp at hg

theorem wsStar_space_cons (pr : Option Char) (c : Char) (r : List Char)
    (hc : isJsSpace c = false) :
    wsStar (pr, ' ' :: c :: r) = (some ' ', c :: r) := by
  unfold wsStar
  rw [List.takeWhile_cons, List.dropWhile_cons]
  rw [if_pos (by decide), if_pos (by decide)]
  rw [List.takeWhile_cons, List.dropWhile_cons, if_neg (by simp [hc]), if_neg (by simp [hc])]
  rfl

theorem wsStar_nonspace (pr : Option Char) (c : Char) (r : List Char)
    (hc : isJsSpace c = false) :
    wsStar (pr, c :: r) = (pr, c :: r) := by
  unfold wsStar
  rw [List.takeWhile_cons, List.dropWhile_cons, if_neg (by simp [hc]), if_neg (by simp [hc])]
  rfl

theorem wsPlus_space_cons (pr : Option Char) (c : Char) (r : List Char)
    (hc : isJsSpace c = false) :
    wsPlus (pr, ' ' :: c :: r) = some (some ' ', c :: r) := by
  unfold wsPlus
  dsimp only
  rw [if_pos (by decide)]
  rw [wsStar_space_cons pr c r hc]

theorem dashOpt_nondash (pr : Option Char) (c : Char) (r : List Char)
    (hc : (c == '-') = false) : dashOpt (pr, c :: r) = (pr, c :: r) := by
  unfold dashOpt
  dsimp only
  rw [if_neg (by simp [hc])]

theorem matchOper_none_percent (pr : Option Char) (r : List Char) :
    matchOper (pr, '%' :: r) = none := by
  simp [matchOper, litP, List.isPrefixOf]

theorem nonspace_of_word {c : Char} (hc : isWordChar c = true) : isJsSpace c = false := by
  cases hs : isJsSpace c
  · rfl
  · exfalso
    have h4 : c = ' ' ∨ c = '\t' ∨ c = '\x0d' ∨ c = '\n' := by
      revert hs
      unfold isJsSpace Char.isWhitespace
      intro hs
      simp only [Bool.or_eq_true, decide_eq_true_eq] at hs
      tauto
    rcases h4 with h | h | h | h <;> rw [h] at hc <;> exact absurd hc (by decide)

theorem compM_none_at_close (v : List Char) (pr : Option Char) (rest : List Char)
    (hne : v ≠ []) (hall : ∀ c ∈ v, isWordChar c = true) :
    compM v pr (v ++ ' ' :: '%' :: rbraceC :: rest) = none := by
  unfold compM
  by_cases hb : atBoundary (pr, v ++ ' ' :: '%' :: rbraceC :: rest) = true
  · rw [if_pos hb, litP_append]
    have hbnd2 : atBoundary (lastO v pr, ' ' :: '%' :: rbraceC :: rest) = true := by
      unfold atBoundary
      dsimp only
      rw [isWordO_lastO_of_ident pr hne hall,
        show (' ' :: '%' :: rbraceC :: rest).head? = some ' ' from rfl]
      decide
    dsimp only
    rw [if_pos hbnd2, wsStar_space_cons _ _ _ (by decide), matchOper_none_percent]
  · rw [if_neg hb]

theorem orElse_isSome_left {α : Type} {a : Option α} (ha : ∃ x, a = some x) (b : Option α) :
    ∃ y, (a <|> b) = some y := by
  obtain ⟨x, hx⟩ := ha
  exact ⟨x, by rw [hx]; rfl⟩

theorem orElse_isSome_right {α : Type} (a : Option α) {b : Option α} (hb : ∃ x, b = some x) :
    ∃ y, (a <|> b) = some y := by
  cases a with
  | some z => exact ⟨z, rfl⟩
  | none =>
    obtain ⟨x, hx⟩ := hb
    exact ⟨x, by rw [show ((none <|> b) : Option α) = b from rfl, hx]⟩

theorem boolCond_at_close (v : List Char) (pr : Option Char) (rest : List Char)
    (hne : v ≠ []) (hall : ∀ c ∈ v, isWordChar c = true) :
    ∃ r, boolCond v (pr, v ++ ' ' :: '%' :: rbraceC :: rest) = some r := by
  unfold boolCond
  rw [litP_append]
  have hbnd2 : atBoundary (lastO v pr, ' ' :: '%' :: rbraceC :: rest) = true := by
    unfold atBoundary
    dsimp only
    rw [isWordO_lastO_of_ident pr hne hall,
      show (' ' :: '%' :: rbraceC :: rest).head? = some ' ' from rfl]
    decide
  dsimp only
  rw [if_pos hbnd2, wsStar_space_cons _ _ _ (by decide)]
  apply orElse_isSome_right
  apply orElse_isSome_right
  refine ⟨(lastO tagCloseL (some ' '), rest), ?_⟩
  rw [show ('%' :: rbraceC :: rest) = tagCloseL ++ rest from rfl]
  exact litP_append tagCloseL (some ' ') rest

theorem boolNotCond_at_close (v : List Char) (pr : Option Char) (rest : List Char)
    (hne : v ≠ []) (hall : ∀ c ∈ v, isWordChar c = true) :
    ∃ r, boolNotCond v (pr, v ++ ' ' :: '%' :: rbraceC :: rest) = some r := by
  unfold boolNotCond
  exact orElse_isSome_right _ (boolCond_at_close v pr rest hne hall)

theorem head_word_of_ident {v : List Char} (hne : v ≠ []) (hall : ∀ c ∈ v, isWordChar c = true) :
    ∃ c v', v = c :: v' ∧ isJsSpace c = false := by
  cases v with
  | nil => exact absurd rfl hne
  | cons c v' => exact ⟨c, v', rfl, nonspace_of_word (hall c (List.mem_cons_self c v'))⟩

theorem boolNotCond_after_not (v : List Char) (pr : Option Char) (rest : List Char)
    (hne : v ≠ []) (hall : ∀ c ∈ v, isWordChar c = true) :
    ∃ r, boolNotCond v (pr, "not ".data ++ v ++ ' ' :: '%' :: rbraceC :: rest) = some r := by
  unfold boolNotCond
  apply orElse_isSome_left
  rw [show ("not ".data ++ v ++ ' ' :: '%' :: rbraceC :: rest)
    = "not".data ++ (' ' :: (v ++ ' ' :: '%' :: rbraceC :: rest)) from by simp, litP_append]
  simp only [Option.some_bind]
  obtain ⟨c, v', hv, hc⟩ := head_word_of_ident hne hall
  rw [hv, List.cons_append, wsPlus_space_cons _ _ _ hc, ← List.cons_append, ← hv]
  simp only [Option.some_bind]
  exact boolCond_at_close v (some ' ') rest hne hall

theorem litP_head_ne (c : Char) (lit : List Char) (pr : Option Char) (d : Char) (r : List Char)
    (h : (c == d) = false) : litP (c :: lit) (pr, d :: r) = none := by
  unfold litP
  rw [if_neg]
  intro hpre
  rw [show (c :: lit).isPrefixOf (d :: r) = ((c == d) && lit.isPrefixOf r) from rfl, h] at hpre
  simp at hpre

theorem boolM_nil (v : List Char) (pr : Option Char) : boolM v pr [] = none := rfl

theorem caseM_nil (v : List Char) (pr : Option Char) : caseM v pr [] = none := rfl

theorem compM_nil (v : List Char) (pr : Option Char) (hne : v ≠ []) :
    compM v pr [] = none := by
  unfold compM
  by_cases hb : atBoundary (pr, ([] : List Char)) = true
  · rw [if_pos hb]
    cases v with
    | nil => exact absurd rfl hne
    | cons c v' =>
      rw [show litP (c :: v') (pr, []) = none from by unfold litP; rw [if_neg]; intro h; simp [List.isPrefixOf] at h]
  · rw [if_neg hb]

theorem compM_inv {v : List Char} {pr : Option Char} {cs : List Char} {x : String × Nat}
    (h : compM v pr cs = some x) : v <+: cs := by
  unfold compM at h
  split at h
  · split at h
    · rename_i p1 hp1
      exact ⟨p1.2, (litP_decomp hp1).symm⟩
    · cases h
  · cases h

theorem boolM_inv_open {v : List Char} {pr : Option Char} {cs : List Char} {x : Unit × Nat}
    (h : boolM v pr cs = some x) : tagOpenL <+: cs := by
  unfold boolM at h
  rw [Option.bind_eq_some] at h
  obtain ⟨p1, hp1, _⟩ := h
  exact ⟨p1.2, (litP_decomp hp1).symm⟩

theorem caseM_inv_open {v : List Char} {pr : Option Char} {cs : List Char}
    {x : List Char × Nat} (h : caseM v pr cs = some x) : tagOpenL <+: cs := by
  unfold caseM at h
  rw [Option.bind_eq_some] at h
  obtain ⟨p1, hp1, _⟩ := h
  exact ⟨p1.2, (litP_decomp hp1).symm⟩

theorem caseM_none_at_tag (v : List Char) (pr : Option Char) (hd : Char) (r : List Char)
    (hnc : (hd == 'c') = false) (hns : isJsSpace hd = false) :
    caseM v pr (tagOpenL ++ ' ' :: hd :: r) = none := by
  unfold caseM
  rw [litP_append]
  simp only [Option.some_bind]
  rw [dashOpt_nondash _ _ _ (by decide), wsStar_space_cons _ _ _ hns,
    litP_head_ne _ _ _ _ _ (by simp only [beq_eq_false_iff_ne] at hnc ⊢; exact fun h => hnc h.symm)]
  rfl

theorem boolNotCond_hit (v : List Char) (pr : Option Char) (rest : List Char) (negs : List Char)
    (hne : v ≠ []) (hall : ∀ c ∈ v, isWordChar c = true)
    (hneg : negs = [] ∨ negs = "not ".data) :
    ∃ r, boolNotCond v (pr, negs ++ (v ++ ' ' :: '%' :: rbraceC :: rest)) = some r := by
  rcases hneg with h | h <;> subst h
  · simpa using boolNotCond_at_close v pr rest hne hall
  · have := boolNotCond_after_not v pr rest hne hall
    simpa [List.append_assoc] using this

theorem boolBranch_hit (v kwd : List Char) (pr : Option Char) (X : List Char)
    (hX : ∃ c r0, X = c :: r0 ∧ isJsSpace c = false)
    (hbnc : ∃ r, boolNotCond v (some ' ', X) = some r) :
    ∃ r, ((litP kwd (pr, kwd ++ ' ' :: X)).bind fun pk =>
      (wsPlus pk).bind (boolNotCond v)) = some r := by
  rw [litP_append]
  simp only [Option.some_bind]
  obtain ⟨c, r0, hx, hc⟩ := hX
  rw [hx, wsPlus_space_cons _ _ _ hc, ← hx]
  simp only [Option.some_bind]
  exact hbnc

theorem boolKw_hit (v kw negs : List Char) (pr : Option Char) (rest : List Char)
    (hne : v ≠ []) (hall : ∀ c ∈ v, isWordChar c = true)
    (hkw : kw = "if".data ∨ kw = "unless".data ∨ kw = "elsif".data)
    (hneg : negs = [] ∨ negs = "not ".data) :
    ∃ r, boolKw v (pr, kw ++ ' ' :: (negs ++ (v ++ ' ' :: '%' :: rbraceC :: rest))) = some r := by
  have hX : ∃ c r0, negs ++ (v ++ ' ' :: '%' :: rbraceC :: rest) = c :: r0 ∧
      isJsSpace c = false := by
    rcases hneg with h | h <;> subst h
    · obtain ⟨c, v', hv, hc⟩ := head_word_of_ident hne hall
      exact ⟨c, v' ++ ' ' :: '%' :: rbraceC :: rest, by rw [hv]; rfl, hc⟩
    · exact ⟨'n', "ot ".data ++ (v ++ ' ' :: '%' :: rbraceC :: rest), rfl, by decide⟩
  have hbnc := boolNotCond_hit v (some ' ') rest negs hne hall hneg
  rcases hkw with h | h | h <;> subst h
  · exact orElse_isSome_left (boolBranch_hit v "if".data pr _ hX hbnc) _
  · exact orElse_isSome_right _ (orElse_isSome_left (boolBranch_hit v "unless".data pr _ hX hbnc) _)
  · exact orElse_isSome_right _ (orElse_isSome_right _ (boolBranch_hit v "elsif".data pr _ hX hbnc))

theorem boolM_hit (v kw negs : List Char) (pr : Option Char) (rest : List Char)
    (hne : v ≠ []) (hall : ∀ c ∈ v, isWordChar c = true)
    (hkw : kw = "if".data ∨ kw = "unless".data ∨ kw = "elsif".data)
    (hneg : negs = [] ∨ negs = "not ".data) :
    ∃ n, boolM v pr
      (tagOpenL ++ ' ' :: (kw ++ ' ' :: (negs ++ (v ++ ' ' :: '%' :: rbraceC :: rest))))
      = some ((), n) := by
  have hkcons : ∃ kc kt, kw = kc :: kt ∧ isJsSpace kc = false := by
    rcases hkw with h | h | h <;> subst h
    · exact ⟨'i', "f".data, rfl, by decide⟩
    · exact ⟨'u', "nless".data, rfl, by decide⟩
    · exact ⟨'e', "lsif".data, rfl, by decide⟩
  obtain ⟨r, hr⟩ := boolKw_hit v kw negs (some ' ') rest hne hall hkw hneg
  refine ⟨(tagOpenL ++ ' ' :: (kw ++ ' ' ::
    (negs ++ (v ++ ' ' :: '%' :: rbraceC :: rest)))).length - r.2.length, ?_⟩
  unfold boolM
  rw [litP_append]
  simp only [Option.some_bind]
  rw [dashOpt_nondash _ _ _ (by decide)]
  obtain ⟨kc, kt, hkeq, hknsp⟩ := hkcons
  rw [hkeq, List.cons_append, wsStar_space_cons _ _ _ hknsp, ← List.cons_append, ← hkeq, hr]
  rfl


theorem isWordIdent_parts {v : String} (hv : isWordIdent v = true) :
    v.data ≠ [] ∧ ∀ c ∈ v.data, isWordChar c = true := by
  unfold isWordIdent at hv
  rw [Bool.and_eq_true] at hv
  refine ⟨?_, ?_⟩
  · intro hnil
    rw [hnil] at hv
    simp at hv
  · exact fun c hc => List.all_eq_true.mp hv.2 c hc

theorem eraseDups_single (v : String) : ([v] : List String).eraseDups = [v] := by
  simp [List.eraseDups, List.eraseDups.loop]

theorem find?_invalid_single {v : String} (hv : regexFragmentValid v = true) :
    (([v] : List String).find? fun n => !regexFragmentValid n) = none := by
  rw [List.find?_cons]
  simp [hv]

theorem c4_decomp1 (p s v kw negs T : String)
    (hT : T = p ++ "\x7b% " ++ kw ++ " " ++ negs ++ v ++ " %\x7d" ++ s) :
    T.data = p.data ++ (tagOpenL ++ ' ' :: (kw.data ++ ' ' ::
      (negs.data ++ (v.data ++ ' ' :: '%' :: rbraceC :: s.data)))) := by
  subst hT
  simp [String.data_append, tagOpenL, lbraceC, rbraceC]

theorem c4_decomp2 (p s v kw negs T : String)
    (hT : T = p ++ "\x7b% " ++ kw ++ " " ++ negs ++ v ++ " %\x7d" ++ s) :
    T.data = (p.data ++ (tagOpenL ++ ' ' :: (kw.data ++ ' ' :: negs.data)))
      ++ (v.data ++ ' ' :: '%' :: rbraceC :: s.data) := by
  rw [c4_decomp1 p s v kw negs T hT]
  simp

theorem c4_prefix_len (p kw negs : String) :
    (p.data ++ (tagOpenL ++ ' ' :: (kw.data ++ ' ' :: negs.data))).length
      = p.data.length + kw.data.length + negs.data.length + 4 := by
  simp [tagOpenL]
  omega

theorem c4_comp_empty (p s v kw negs T : String)
    (hv : isWordIdent v = true)
    (hT : T = p ++ "\x7b% " ++ kw ++ " " ++ negs ++ v ++ " %\x7d" ++ s)
    (hocc : ∀ k ≤ T.data.length, v.data <+: T.data.drop k →
      k = p.data.length + kw.data.length + negs.data.length + 4) :
    comparisonCaptures v T = [] := by
  obtain ⟨hne, hall⟩ := isWordIdent_parts hv
  unfold comparisonCaptures
  apply scanAll_eq_nil_tracked
  intro a2 b2 he
  cases hc : compM v.data (lastO a2 none) b2 with
  | none => rfl
  | some x =>
    exfalso
    have hpre : v.data <+: b2 := compM_inv hc
    have hk := hocc a2.length (by rw [he]; simp)
      (by rw [he, List.drop_left]; exact hpre)
    have hb2 : b2 = v.data ++ ' ' :: '%' :: rbraceC :: s.data := by
      have h2 := c4_decomp2 p s v kw negs T hT
      rw [he] at h2
      exact ((List.append_inj h2.symm (by rw [c4_prefix_len, ← hk])).2).symm
    rw [hb2, compM_none_at_close v.data _ s.data hne hall] at hc
    cases hc

theorem dropWhile_all_append (W X : List Char) (h : ∀ c ∈ W, isJsSpace c = true) :
    (W ++ X).dropWhile isJsSpace = X.dropWhile isJsSpace := by
  induction W with
  | nil => rfl
  | cons c W ih =>
    rw [List.cons_append, List.dropWhile_cons, if_pos (h c (List.mem_cons_self c W))]
    exact ih fun d hd => h d (List.mem_cons_of_mem c hd)

theorem last_token_conflict (Z W Q : List Char) (u : Char)
    (hWs : ∀ c ∈ W, isJsSpace c = true)
    (hu : isJsSpace u = false) (hne : u ≠ 'e')
    (heq : (Z ++ "case".data) ++ W = Q ++ [u, ' ']) : False := by
  have h1 : (((Z ++ "case".data) ++ W).reverse.dropWhile isJsSpace).head? = some 'e' := by
    rw [List.reverse_append,
      dropWhile_all_append _ _ (fun c hc => hWs c (List.mem_reverse.mp hc)),
      List.reverse_append,
      show ("case".data).reverse = 'e' :: "sac".data from rfl,
      List.cons_append, List.dropWhile_cons, if_neg (by decide)]
    rfl
  have h2 : ((Q ++ [u, ' ']).reverse.dropWhile isJsSpace).head? = some u := by
    rw [List.reverse_append,
      show ([u, ' '].reverse ++ Q.reverse) = ' ' :: u :: Q.reverse from rfl,
      List.dropWhile_cons, if_pos (by decide),
      List.dropWhile_cons, if_neg (by simp [hu])]
    rfl
  rw [heq, h2] at h1
  exact hne (Option.some.inj h1)

theorem caseM_inv {v : List Char} {pr : Option Char} {cs : List Char}
    {x : List Char × Nat} (h : caseM v pr cs = some x) :
    ∃ pre W r, cs = ((pre ++ "case".data) ++ W) ++ (v ++ r)
      ∧ W ≠ [] ∧ (∀ c ∈ W, isJsSpace c = true) := by
  unfold caseM at h
  rw [Option.bind_eq_some] at h
  obtain ⟨p1, hp1, h⟩ := h
  rw [Option.bind_eq_some] at h
  obtain ⟨p4, hp4, h⟩ := h
  rw [Option.bind_eq_some] at h
  obtain ⟨p5, hp5, h⟩ := h
  rw [Option.bind_eq_some] at h
  obtain ⟨p6, hp6, _⟩ := h
  have h1 : cs = tagOpenL ++ p1.2 := litP_decomp hp1
  obtain ⟨D, hD, _⟩ := dashOpt_decomp p1
  obtain ⟨W0, hW0⟩ : ∃ W0, (dashOpt p1).2 = W0 ++ (wsStar (dashOpt p1)).2 :=
    ⟨_, (wsStar_decomp _).1⟩
  have h4 : (wsStar (dashOpt p1)).2 = "case".data ++ p4.2 := litP_decomp hp4
  obtain ⟨W, hW, hWne, hWs⟩ := wsPlus_decomp hp5
  have h6 : p5.2 = v ++ p6.2 := litP_decomp hp6
  refine ⟨tagOpenL ++ D ++ W0, W, p6.2, ?_, hWne, hWs⟩
  rw [h1, hD, hW0, h4, hW, h6]
  simp [List.append_assoc]

theorem c4_P_tail (p kw negs : String)
    (hkw : kw = "if" ∨ kw = "unless" ∨ kw = "elsif")
    (hneg : negs = "" ∨ negs = "not ") :
    ∃ Q u, (p.data ++ (tagOpenL ++ ' ' :: (kw.data ++ ' ' :: negs.data)))
        = Q ++ [u, ' ']
      ∧ isJsSpace u = false ∧ u ≠ 'e' := by
  rcases hneg with h | h <;> subst h
  · rcases hkw with h | h | h <;> subst h
    · exact ⟨p.data ++ (tagOpenL ++ ' ' :: ['i']), 'f', by simp, by decide, by decide⟩
    · exact ⟨p.data ++ (tagOpenL ++ ' ' :: "unles".data), 's', by simp, by decide,
        by decide⟩
    · exact ⟨p.data ++ (tagOpenL ++ ' ' :: "elsi".data), 'f', by simp, by decide,
        by decide⟩
  · rcases hkw with h | h | h <;> subst h
    · exact ⟨p.data ++ (tagOpenL ++ ' ' :: ("if".data ++ ' ' :: "no".data)), 't',
        by simp, by decide, by decide⟩
    · exact ⟨p.data ++ (tagOpenL ++ ' ' :: ("unless".data ++ ' ' :: "no".data)), 't',
        by simp, by decide, by decide⟩
    · exact ⟨p.data ++ (tagOpenL ++ ' ' :: ("elsif".data ++ ' ' :: "no".data)), 't',
        by simp, by decide, by decide⟩

theorem c4_bool_hit_ne (p s v kw negs T : String)
    (hv : isWordIdent v = true)
    (hkw : kw = "if" ∨ kw = "unless" ∨ kw = "elsif")
    (hneg : negs = "" ∨ negs = "not ")
    (hT : T = p ++ "\x7b% " ++ kw ++ " " ++ negs ++ v ++ " %\x7d" ++ s) :
    scanAll (boolM v.data) none 0 T.data ≠ [] := by
  obtain ⟨hne, hall⟩ := isWordIdent_parts hv
  have hkwd : kw.data = "if".data ∨ kw.data = "unless".data ∨ kw.data = "elsif".data := by
    rcases hkw with h | h | h <;> subst h
    · exact Or.inl rfl
    · exact Or.inr (Or.inl rfl)
    · exact Or.inr (Or.inr rfl)
  have hnegd : negs.data = [] ∨ negs.data = "not ".data := by
    rcases hneg with h | h <;> subst h
    · exact Or.inl rfl
    · exact Or.inr rfl
  obtain ⟨n, hM⟩ := boolM_hit v.data kw.data negs.data (lastO p.data none) s.data
    hne hall hkwd hnegd
  rw [c4_decomp1 p s v kw negs T hT]
  exact scanAll_ne_nil (boolM v.data) none p.data _ (boolM_nil v.data) ⟨_, hM⟩

theorem c4_case_empty (p s v kw negs T : String)
    (hkw : kw = "if" ∨ kw = "unless" ∨ kw = "elsif")
    (hneg : negs = "" ∨ negs = "not ")
    (hT : T = p ++ "\x7b% " ++ kw ++ " " ++ negs ++ v ++ " %\x7d" ++ s)
    (hocc : ∀ k ≤ T.data.length, v.data <+: T.data.drop k →
      k = p.data.length + kw.data.length + negs.data.length + 4) :
    caseBlocks v T = [] := by
  unfold caseBlocks
  apply scanAll_eq_nil_tracked
  intro a2 b2 he
  cases hc : caseM v.data (lastO a2 none) b2 with
  | none => rfl
  | some x =>
    exfalso
    obtain ⟨pre, W, r, hb2, hWne, hWs⟩ := caseM_inv hc
    have hTd : T.data = (((a2 ++ pre) ++ "case".data) ++ W) ++ (v.data ++ r) := by
      rw [he, hb2]
      simp [List.append_assoc]
    have hj := hocc ((((a2 ++ pre) ++ "case".data) ++ W)).length
      (by rw [hTd]; simp)
      (by rw [hTd, List.drop_left]; exact List.prefix_append _ _)
    have h2 := c4_decomp2 p s v kw negs T hT
    have hXP : (((a2 ++ pre) ++ "case".data) ++ W)
        = p.data ++ (tagOpenL ++ ' ' :: (kw.data ++ ' ' :: negs.data)) :=
      (List.append_inj (hTd.symm.trans h2) (by rw [hj, c4_prefix_len])).1
    obtain ⟨Q, u, hQ, hu, hune⟩ := c4_P_tail p kw negs hkw hneg
    exact last_token_conflict (a2 ++ pre) W Q u hWs hu hune (hXP.trans hQ)

/-- Claim C4: for every template in which the variable name stands alone,
optionally negated, as the full condition of an if, unless or elsif tag -
with the name occurring nowhere else in the text, so that this construct
is the only evidence - the collected evidence for that variable is
exactly the two boolean values and the inferred kind is boolean,
regardless of where in the template the construct occurs and whatever
other tags, such as the closing endif, the surrounding text holds. -/
theorem infer_boolean_context (p s v kw negs T : String)
    (hv : isWordIdent v = true)
    (hkw : kw = "if" ∨ kw = "unless" ∨ kw = "elsif")
    (hneg : negs = "" ∨ negs = "not ")
    (hT : T = p ++ "\x7b% " ++ kw ++ " " ++ negs ++ v ++ " %\x7d" ++ s)
    (hocc : ∀ k ≤ T.data.length, v.data <+: T.data.drop k →
      k = p.data.length + kw.data.length + negs.data.length + 4) :
    findLiquidVariableValues [v] T = .ok [(v, [.bool true, .bool false])] ∧
    typeOfVar none [.bool true, .bool false] = "boolean" := by
  have hbh : booleanHit v T = true := by
    unfold booleanHit
    cases hsc : scanAll (boolM v.data) none 0 T.data with
    | nil => exact absurd hsc (c4_bool_hit_ne p s v kw negs T hv hkw hneg hT)
    | cons a l => rfl
  have hA : analyzeOne v T = [.bool true, .bool false] := by
    unfold analyzeOne
    rw [c4_comp_empty p s v kw negs T hv hT hocc,
      c4_case_empty p s v kw negs T hkw hneg hT hocc, hbh]
    rfl
  refine ⟨?_, by decide⟩
  unfold findLiquidVariableValues
  rw [find?_invalid_single (wordIdent_fragmentValid v hv), eraseDups_single]
  simp [hA]

/-- Claim C4, witness: the concrete if block, closing endif tag
included, in the middle of surrounding text. -/
theorem infer_boolean_context_witness :
    findLiquidVariableValues ["flag"] "x: \x7b% if flag %\x7d yes \x7b% endif %\x7d."
      = .ok [("flag", [.bool true, .bool false])] ∧
    typeOfVar none [.bool true, .bool false] = "boolean" :=
  infer_boolean_context "x: " " yes \x7b% endif %\x7d." "flag" "if" ""
    "x: \x7b% if flag %\x7d yes \x7b% endif %\x7d."
    (by decide) (Or.inl rfl) (Or.inl rfl) (by decide) (by decide)

theorem whenTagM_nil (pr : Option Char) : whenTagM pr [] = none := rfl

theorem whenTagM_inv_open {pr : Option Char} {cs : List Char} {x : String × Nat}
    (h : whenTagM pr cs = some x) : tagOpenL <+: cs := by
  unfold whenTagM at h
  rw [Option.bind_eq_some] at h
  obtain ⟨p1, hp1, _⟩ := h
  exact ⟨p1.2, (litP_decomp hp1).symm⟩

theorem endcaseTagAt_inv_open {cs : List Char} {n : Nat}
    (h : endcaseTagAt cs = some n) : tagOpenL <+: cs := by
  unfold endcaseTagAt at h
  rw [Option.bind_eq_some] at h
  obtain ⟨p1, hp1, _⟩ := h
  exact ⟨p1.2, (litP_decomp hp1).symm⟩

theorem litP_of_not_prefix (lit : List Char) (pr : Option Char) (cs : List Char)
    (h : lit.isPrefixOf cs = false) : litP lit (pr, cs) = none := by
  unfold litP
  rw [if_neg]
  intro hpre
  rw [h] at hpre
  cases hpre

theorem endcaseTagAt_at_designated (R : List Char) :
    endcaseTagAt ("\x7b% endcase %\x7d".data ++ R) = some 13 := by
  unfold endcaseTagAt
  rw [show "\x7b% endcase %\x7d".data ++ R
    = tagOpenL ++ ' ' :: ("endcase".data ++ ' ' :: '%' :: rbraceC :: R) from rfl]
  rw [litP_append]
  simp only [Option.some_bind]
  rw [dashOpt_nondash _ _ _ (by decide),
    show (' ' :: ("endcase".data ++ ' ' :: '%' :: rbraceC :: R))
      = ' ' :: 'e' :: ("ndcase".data ++ ' ' :: '%' :: rbraceC :: R) from rfl,
    wsStar_space_cons _ _ _ (by decide),
    show ('e' :: ("ndcase".data ++ ' ' :: '%' :: rbraceC :: R))
      = "endcase".data ++ (' ' :: '%' :: rbraceC :: R) from rfl, litP_append]
  simp only [Option.some_bind]
  rw [wsStar_space_cons _ _ _ (by decide), dashOpt_nondash _ _ _ (by decide),
    show ('%' :: rbraceC :: R) = tagCloseL ++ R from rfl, litP_append]
  simp only [Option.map_some']
  simp [tagOpenL, tagCloseL]
  omega

theorem endcaseTagAt_at_when (R : List Char) :
    endcaseTagAt (tagOpenL ++ ' ' :: 'w' :: R) = none := by
  unfold endcaseTagAt
  rw [litP_append]
  simp only [Option.some_bind]
  rw [dashOpt_nondash _ _ _ (by decide), wsStar_space_cons _ _ _ (by decide),
    litP_head_ne _ _ _ _ _ (by decide)]
  rfl

theorem findEndcase_append (blk : List Char) (tail : List Char) (n : Nat)
    (hnone : ∀ k, k < blk.length → endcaseTagAt (blk.drop k ++ tail) = none)
    (htail : tail ≠ []) (hend : endcaseTagAt tail = some n) :
    findEndcase (blk ++ tail) = some (blk, blk.length + n) := by
  induction blk with
  | nil =>
    cases tail with
    | nil => exact absurd rfl htail
    | cons c t' =>
      simp only [List.nil_append, List.length_nil, Nat.zero_add]
      unfold findEndcase
      rw [hend]
  | cons c bs ih =>
    have h0 := hnone 0 (by simp)
    rw [List.drop_zero] at h0
    rw [List.cons_append]
    unfold findEndcase
    rw [show endcaseTagAt (c :: (bs ++ tail)) = none from h0]
    rw [ih fun k hk => hnone (k + 1) (by simp; omega)]
    simp only [Option.map_some']
    simp
    omega

theorem closeTagAt_plain (c : Char) (cs : List Char) (hs : isJsSpace c = false)
    (hd : (c == '-') = false) (hp : ('%' == c) = false) :
    closeTagAt (c :: cs) = none := by
  unfold closeTagAt
  rw [wsStar_nonspace _ _ _ hs, dashOpt_nondash _ _ _ hd,
    show tagCloseL = '%' :: [rbraceC] from rfl, litP_head_ne _ _ _ _ _ hp]
  rfl

theorem closeTagAt_ws_then (c : Char) (cs : List Char) (hs : isJsSpace c = false)
    (hd : (c == '-') = false) (hp : ('%' == c) = false) :
    closeTagAt (' ' :: c :: cs) = none := by
  unfold closeTagAt
  rw [wsStar_space_cons _ _ _ hs, dashOpt_nondash _ _ _ hd,
    show tagCloseL = '%' :: [rbraceC] from rfl, litP_head_ne _ _ _ _ _ hp]
  rfl

theorem closeTagAt_at_designated (R : List Char) :
    closeTagAt (' ' :: '%' :: rbraceC :: R) = some 3 := by
  unfold closeTagAt
  rw [wsStar_space_cons _ _ _ (by decide), dashOpt_nondash _ _ _ (by decide),
    show ('%' :: rbraceC :: R) = tagCloseL ++ R from rfl, litP_append]
  simp only [Option.map_some']
  simp [tagCloseL]
  omega

theorem findWhenClose_step (c : Char) (cs : List Char)
    (h1 : closeTagAt (c :: cs) = none) (h2 : isLineTerm c = false) :
    findWhenClose (c :: cs) = (findWhenClose cs).map fun r => (c :: r.1, r.2 + 1) := by
  conv_lhs => rw [findWhenClose]
  rw [h1, h2]
  simp

theorem findWhenClose_at_close (R : List Char) :
    findWhenClose (' ' :: '%' :: rbraceC :: R) = some ([], 3) := by
  unfold findWhenClose
  rw [closeTagAt_at_designated]

theorem findWhenClose_12 (R : List Char) :
    findWhenClose ("1 or 2 %\x7d".data ++ R) = some ("1 or 2".data, 9) := by
  rw [show "1 or 2 %\x7d".data ++ R
    = '1' :: ' ' :: 'o' :: 'r' :: ' ' :: '2' :: ' ' :: '%' :: rbraceC :: R from rfl]
  rw [findWhenClose_step '1' _ (closeTagAt_plain _ _ (by decide) (by decide) (by decide))
      (by decide),
    findWhenClose_step ' ' _ (closeTagAt_ws_then _ _ (by decide) (by decide) (by decide))
      (by decide),
    findWhenClose_step 'o' _ (closeTagAt_plain _ _ (by decide) (by decide) (by decide))
      (by decide),
    findWhenClose_step 'r' _ (closeTagAt_plain _ _ (by decide) (by decide) (by decide))
      (by decide),
    findWhenClose_step ' ' _ (closeTagAt_ws_then _ _ (by decide) (by decide) (by decide))
      (by decide),
    findWhenClose_step '2' _ (closeTagAt_plain _ _ (by decide) (by decide) (by decide))
      (by decide),
    findWhenClose_at_close]
  rfl

theorem findWhenClose_3 (R : List Char) :
    findWhenClose ("3 %\x7d".data ++ R) = some (['3'], 4) := by
  rw [show "3 %\x7d".data ++ R = '3' :: ' ' :: '%' :: rbraceC :: R from rfl]
  rw [findWhenClose_step '3' _ (closeTagAt_plain _ _ (by decide) (by decide) (by decide))
      (by decide),
    findWhenClose_at_close]
  rfl

theorem whenTagM_12 (pr : Option Char) (R : List Char) :
    whenTagM pr ("\x7b% when 1 or 2 %\x7d".data ++ R) = some ("1 or 2", 17) := by
  unfold whenTagM
  rw [show "\x7b% when 1 or 2 %\x7d".data ++ R
    = tagOpenL ++ ' ' :: ("when".data ++ ' ' :: ("1 or 2 %\x7d".data ++ R)) from rfl]
  rw [litP_append]
  simp only [Option.some_bind]
  rw [dashOpt_nondash _ _ _ (by decide),
    show (' ' :: ("when".data ++ ' ' :: ("1 or 2 %\x7d".data ++ R)))
      = ' ' :: 'w' :: ("hen".data ++ ' ' :: ("1 or 2 %\x7d".data ++ R)) from rfl,
    wsStar_space_cons _ _ _ (by decide),
    show ('w' :: ("hen".data ++ ' ' :: ("1 or 2 %\x7d".data ++ R)))
      = "when".data ++ (' ' :: ("1 or 2 %\x7d".data ++ R)) from rfl, litP_append]
  simp only [Option.some_bind]
  rw [show (' ' :: ("1 or 2 %\x7d".data ++ R))
      = ' ' :: '1' :: (" or 2 %\x7d".data ++ R) from rfl,
    wsPlus_space_cons _ _ _ (by decide)]
  simp only [Option.some_bind]
  rw [show ('1' :: (" or 2 %\x7d".data ++ R)) = "1 or 2 %\x7d".data ++ R from rfl,
    findWhenClose_12]
  simp only [Option.map_some']
  rw [show String.mk "1 or 2".data = "1 or 2" from rfl]
  simp [tagOpenL]

theorem whenTagM_3 (pr : Option Char) (R : List Char) :
    whenTagM pr ("\x7b% when 3 %\x7d".data ++ R) = some ("3", 12) := by
  unfold whenTagM
  rw [show "\x7b% when 3 %\x7d".data ++ R
    = tagOpenL ++ ' ' :: ("when".data ++ ' ' :: ("3 %\x7d".data ++ R)) from rfl]
  rw [litP_append]
  simp only [Option.some_bind]
  rw [dashOpt_nondash _ _ _ (by decide),
    show (' ' :: ("when".data ++ ' ' :: ("3 %\x7d".data ++ R)))
      = ' ' :: 'w' :: ("hen".data ++ ' ' :: ("3 %\x7d".data ++ R)) from rfl,
    wsStar_space_cons _ _ _ (by decide),
    show ('w' :: ("hen".data ++ ' ' :: ("3 %\x7d".data ++ R)))
      = "when".data ++ (' ' :: ("3 %\x7d".data ++ R)) from rfl, litP_append]
  simp only [Option.some_bind]
  rw [show (' ' :: ("3 %\x7d".data ++ R)) = ' ' :: '3' :: (" %\x7d".data ++ R) from rfl,
    wsPlus_space_cons _ _ _ (by decide)]
  simp only [Option.some_bind]
  rw [show ('3' :: (" %\x7d".data ++ R)) = "3 %\x7d".data ++ R from rfl, findWhenClose_3]
  simp only [Option.map_some']
  rw [show String.mk ['3'] = "3" from rfl]
  simp [tagOpenL]

theorem c7_fold_concrete :
    (["1 or 2", "3"] : List String).foldl
      (fun acc w => (splitOnOr w).foldl addParsed acc) []
      = [.num (jsInt 1), .num (jsInt 2), .num (jsInt 3)] := by
  decide

theorem caseM_hit (v : List Char) (pr : Option Char) (blk rest : List Char)
    (hne : v ≠ []) (hall : ∀ c ∈ v, isWordChar c = true)
    (hnone : ∀ k, k < blk.length →
      endcaseTagAt (blk.drop k ++ ("\x7b% endcase %\x7d".data ++ rest)) = none) :
    ∃ n, caseM v pr (tagOpenL ++ ' ' :: ("case".data ++ ' ' :: (v ++ ' ' :: '%' ::
      rbraceC :: (blk ++ ("\x7b% endcase %\x7d".data ++ rest))))) = some (blk, n) := by
  unfold caseM
  rw [litP_append]
  simp only [Option.some_bind]
  rw [dashOpt_nondash _ _ _ (by decide),
    show (' ' :: ("case".data ++ ' ' :: (v ++ ' ' :: '%' :: rbraceC ::
        (blk ++ ("\x7b% endcase %\x7d".data ++ rest)))))
      = ' ' :: 'c' :: ("ase".data ++ ' ' :: (v ++ ' ' :: '%' :: rbraceC ::
        (blk ++ ("\x7b% endcase %\x7d".data ++ rest)))) from rfl,
    wsStar_space_cons _ _ _ (by decide),
    show ('c' :: ("ase".data ++ ' ' :: (v ++ ' ' :: '%' :: rbraceC ::
        (blk ++ ("\x7b% endcase %\x7d".data ++ rest)))))
      = "case".data ++ (' ' :: (v ++ ' ' :: '%' :: rbraceC ::
        (blk ++ ("\x7b% endcase %\x7d".data ++ rest)))) from rfl, litP_append]
  simp only [Option.some_bind]
  obtain ⟨c, v', hv, hc⟩ := head_word_of_ident hne hall
  rw [hv, List.cons_append, wsPlus_space_cons _ _ _ hc, ← List.cons_append, ← hv]
  simp only [Option.some_bind]
  rw [litP_append]
  simp only [Option.some_bind]
  rw [wsStar_space_cons _ _ _ (by decide), dashOpt_nondash _ _ _ (by decide),
    show ('%' :: rbraceC :: (blk ++ ("\x7b% endcase %\x7d".data ++ rest)))
      = tagCloseL ++ (blk ++ ("\x7b% endcase %\x7d".data ++ rest)) from rfl, litP_append]
  simp only [Option.some_bind]
  rw [findEndcase_append blk _ 13 hnone (by simp)
    (endcaseTagAt_at_designated rest)]
  exact ⟨_, rfl⟩

theorem boolM_none_at_tag1 (v : List Char) (pr : Option Char) (hd : Char) (r : List Char)
    (h1 : ('i' == hd) = false) (h2 : ('u' == hd) = false) (h3 : ('e' == hd) = false)
    (hns : isJsSpace hd = false) :
    boolM v pr (tagOpenL ++ ' ' :: hd :: r) = none := by
  unfold boolM
  rw [litP_append]
  simp only [Option.some_bind]
  rw [dashOpt_nondash _ _ _ (by decide), wsStar_space_cons _ _ _ hns]
  unfold boolKw
  rw [show "if".data = 'i' :: "f".data from rfl, litP_head_ne _ _ _ _ _ h1,
    show "unless".data = 'u' :: "nless".data from rfl, litP_head_ne _ _ _ _ _ h2,
    show "elsif".data = 'e' :: "lsif".data from rfl, litP_head_ne _ _ _ _ _ h3]
  rfl

theorem boolM_none_at_endcase (v : List Char) (pr : Option Char) (R : List Char) :
    boolM v pr (tagOpenL ++ ' ' :: ("endcase %\x7d".data ++ R)) = none := by
  unfold boolM
  rw [litP_append]
  simp only [Option.some_bind]
  rw [dashOpt_nondash _ _ _ (by decide),
    show (' ' :: ("endcase %\x7d".data ++ R))
      = ' ' :: 'e' :: ("ndcase %\x7d".data ++ R) from rfl,
    wsStar_space_cons _ _ _ (by decide)]
  unfold boolKw
  rw [show "if".data = 'i' :: "f".data from rfl, litP_head_ne _ _ _ _ _ (by decide),
    show "unless".data = 'u' :: "nless".data from rfl, litP_head_ne _ _ _ _ _ (by decide),
    litP_of_not_prefix "elsif".data _ _ (by rfl)]
  rfl

theorem c7_decomp0 (p s v m1 m2 T : String)
    (hT : T = p ++ "\x7b% case " ++ v ++ " %\x7d\x7b% when 1 or 2 %\x7d" ++ m1
      ++ "\x7b% when 3 %\x7d" ++ m2 ++ "\x7b% endcase %\x7d" ++ s) :
    T.data = p.data ++ (tagOpenL ++ ' ' :: ("case".data ++ ' ' :: (v.data ++ ' ' :: '%' ::
      rbraceC :: (("\x7b% when 1 or 2 %\x7d".data ++ (m1.data ++ ("\x7b% when 3 %\x7d".data
      ++ m2.data))) ++ ("\x7b% endcase %\x7d".data ++ s.data))))) := by
  subst hT
  simp [String.data_append, tagOpenL, lbraceC, rbraceC]

theorem c7_decompv (p s v m1 m2 T : String)
    (hT : T = p ++ "\x7b% case " ++ v ++ " %\x7d\x7b% when 1 or 2 %\x7d" ++ m1
      ++ "\x7b% when 3 %\x7d" ++ m2 ++ "\x7b% endcase %\x7d" ++ s) :
    T.data = (p.data ++ "\x7b% case ".data) ++ (v.data ++ ' ' :: '%' :: rbraceC ::
      (("\x7b% when 1 or 2 %\x7d".data ++ (m1.data ++ ("\x7b% when 3 %\x7d".data
      ++ m2.data))) ++ ("\x7b% endcase %\x7d".data ++ s.data))) := by
  subst hT
  simp [String.data_append, lbraceC, rbraceC]

theorem c7_decomp1 (p s v m1 m2 T : String)
    (hT : T = p ++ "\x7b% case " ++ v ++ " %\x7d\x7b% when 1 or 2 %\x7d" ++ m1
      ++ "\x7b% when 3 %\x7d" ++ m2 ++ "\x7b% endcase %\x7d" ++ s) :
    T.data = (p.data ++ ("\x7b% case ".data ++ (v.data ++ " %\x7d".data)))
      ++ ("\x7b% when 1 or 2 %\x7d".data ++ (m1.data ++ ("\x7b% when 3 %\x7d".data
      ++ (m2.data ++ ("\x7b% endcase %\x7d".data ++ s.data))))) := by
  subst hT
  simp [String.data_append, lbraceC, rbraceC]

theorem c7_decomp2 (p s v m1 m2 T : String)
    (hT : T = p ++ "\x7b% case " ++ v ++ " %\x7d\x7b% when 1 or 2 %\x7d" ++ m1
      ++ "\x7b% when 3 %\x7d" ++ m2 ++ "\x7b% endcase %\x7d" ++ s) :
    T.data = (p.data ++ ("\x7b% case ".data ++ (v.data ++ (" %\x7d".data
      ++ ("\x7b% when 1 or 2 %\x7d".data ++ m1.data)))))
      ++ ("\x7b% when 3 %\x7d".data ++ (m2.data ++ ("\x7b% endcase %\x7d".data
      ++ s.data))) := by
  subst hT
  simp [String.data_append, lbraceC, rbraceC]

theorem c7_decomp3 (p s v m1 m2 T : String)
    (hT : T = p ++ "\x7b% case " ++ v ++ " %\x7d\x7b% when 1 or 2 %\x7d" ++ m1
      ++ "\x7b% when 3 %\x7d" ++ m2 ++ "\x7b% endcase %\x7d" ++ s) :
    T.data = (p.data ++ ("\x7b% case ".data ++ (v.data ++ (" %\x7d".data
      ++ ("\x7b% when 1 or 2 %\x7d".data ++ (m1.data ++ ("\x7b% when 3 %\x7d".data
      ++ m2.data)))))))
      ++ ("\x7b% endcase %\x7d".data ++ s.data) := by
  subst hT
  simp [String.data_append, lbraceC, rbraceC]

theorem c7_comp_empty (p s v m1 m2 T : String)
    (hv : isWordIdent v = true)
    (hT : T = p ++ "\x7b% case " ++ v ++ " %\x7d\x7b% when 1 or 2 %\x7d" ++ m1
      ++ "\x7b% when 3 %\x7d" ++ m2 ++ "\x7b% endcase %\x7d" ++ s)
    (hocc : ∀ k ≤ T.data.length, v.data <+: T.data.drop k → k = p.data.length + 8) :
    comparisonCaptures v T = [] := by
  obtain ⟨hne, hall⟩ := isWordIdent_parts hv
  unfold comparisonCaptures
  apply scanAll_eq_nil_tracked
  intro a2 b2 he
  cases hc : compM v.data (lastO a2 none) b2 with
  | none => rfl
  | some x =>
    exfalso
    have hpre : v.data <+: b2 := compM_inv hc
    have hk := hocc a2.length (by rw [he]; simp)
      (by rw [he, List.drop_left]; exact hpre)
    have hb2 : b2 = v.data ++ ' ' :: '%' :: rbraceC ::
        (("\x7b% when 1 or 2 %\x7d".data ++ (m1.data ++ ("\x7b% when 3 %\x7d".data
        ++ m2.data))) ++ ("\x7b% endcase %\x7d".data ++ s.data)) := by
      have h2 := c7_decompv p s v m1 m2 T hT
      rw [he] at h2
      refine ((List.append_inj h2.symm ?_).2).symm
      simp [hk]
    rw [hb2, compM_none_at_close v.data _ _ hne hall] at hc
    cases hc

theorem c7_bool_empty (p s v m1 m2 T : String)
    (hT : T = p ++ "\x7b% case " ++ v ++ " %\x7d\x7b% when 1 or 2 %\x7d" ++ m1
      ++ "\x7b% when 3 %\x7d" ++ m2 ++ "\x7b% endcase %\x7d" ++ s)
    (hbrace : ∀ k ≤ T.data.length, tagOpenL <+: T.data.drop k →
      k = p.data.length ∨ k = p.data.length + v.data.length + 11 ∨
      k = p.data.length + v.data.length + m1.data.length + 28 ∨
      k = p.data.length + v.data.length + m1.data.length + m2.data.length + 40) :
    scanAll (boolM v.data) none 0 T.data = [] := by
  apply scanAll_eq_nil_tracked
  intro a2 b2 he
  cases hc : boolM v.data (lastO a2 none) b2 with
  | none => rfl
  | some x =>
    exfalso
    have hpre : tagOpenL <+: b2 := boolM_inv_open hc
    have hk := hbrace a2.length (by rw [he]; simp)
      (by rw [he, List.drop_left]; exact hpre)
    rcases hk with hk | hk | hk | hk
    · have hb2 : b2 = tagOpenL ++ ' ' :: ("case".data ++ ' ' :: (v.data ++ ' ' :: '%' ::
          rbraceC :: (("\x7b% when 1 or 2 %\x7d".data ++ (m1.data ++
          ("\x7b% when 3 %\x7d".data ++ m2.data))) ++ ("\x7b% endcase %\x7d".data
          ++ s.data)))) := by
        have h2 := c7_decomp0 p s v m1 m2 T hT
        rw [he] at h2
        exact ((List.append_inj h2.symm (by simp [hk])).2).symm
      rw [hb2,
        show (tagOpenL ++ ' ' :: ("case".data ++ ' ' :: (v.data ++ ' ' :: '%' ::
          rbraceC :: (("\x7b% when 1 or 2 %\x7d".data ++ (m1.data ++
          ("\x7b% when 3 %\x7d".data ++ m2.data))) ++ ("\x7b% endcase %\x7d".data
          ++ s.data)))))
        = tagOpenL ++ ' ' :: 'c' :: ("ase".data ++ ' ' :: (v.data ++ ' ' :: '%' ::
          rbraceC :: (("\x7b% when 1 or 2 %\x7d".data ++ (m1.data ++
          ("\x7b% when 3 %\x7d".data ++ m2.data))) ++ ("\x7b% endcase %\x7d".data
          ++ s.data)))) from rfl,
        boolM_none_at_tag1 _ _ _ _ (by decide) (by decide) (by decide) (by decide)] at hc
      cases hc
    · have hb2 : b2 = "\x7b% when 1 or 2 %\x7d".data ++ (m1.data ++
          ("\x7b% when 3 %\x7d".data ++ (m2.data ++ ("\x7b% endcase %\x7d".data
          ++ s.data)))) := by
        have h2 := c7_decomp1 p s v m1 m2 T hT
        rw [he] at h2
        exact ((List.append_inj h2.symm (by simp [hk]; omega)).2).symm
      rw [hb2,
        show ("\x7b% when 1 or 2 %\x7d".data ++ (m1.data ++ ("\x7b% when 3 %\x7d".data
          ++ (m2.data ++ ("\x7b% endcase %\x7d".data ++ s.data)))))
        = tagOpenL ++ ' ' :: 'w' :: ("hen 1 or 2 %\x7d".data ++ (m1.data ++
          ("\x7b% when 3 %\x7d".data ++ (m2.data ++ ("\x7b% endcase %\x7d".data
          ++ s.data))))) from rfl,
        boolM_none_at_tag1 _ _ _ _ (by decide) (by decide) (by decide) (by decide)] at hc
      cases hc
    · have hb2 : b2 = "\x7b% when 3 %\x7d".data ++ (m2.data ++
          ("\x7b% endcase %\x7d".data ++ s.data)) := by
        have h2 := c7_decomp2 p s v m1 m2 T hT
        rw [he] at h2
        exact ((List.append_inj h2.symm (by simp [hk]; omega)).2).symm
      rw [hb2,
        show ("\x7b% when 3 %\x7d".data ++ (m2.data ++ ("\x7b% endcase %\x7d".data
          ++ s.data)))
        = tagOpenL ++ ' ' :: 'w' :: ("hen 3 %\x7d".data ++ (m2.data ++
          ("\x7b% endcase %\x7d".data ++ s.data))) from rfl,
        boolM_none_at_tag1 _ _ _ _ (by decide) (by decide) (by decide) (by decide)] at hc
      cases hc
    · have hb2 : b2 = "\x7b% endcase %\x7d".data ++ s.data := by
        have h2 := c7_decomp3 p s v m1 m2 T hT
        rw [he] at h2
        exact ((List.append_inj h2.symm (by simp [hk]; omega)).2).symm
      rw [hb2,
        show ("\x7b% endcase %\x7d".data ++ s.data)
        = tagOpenL ++ ' ' :: ("endcase %\x7d".data ++ s.data) from rfl,
        boolM_none_at_endcase] at hc
      cases hc

theorem c7_endcase_none (p s v m1 m2 T : String)
    (hT : T = p ++ "\x7b% case " ++ v ++ " %\x7d\x7b% when 1 or 2 %\x7d" ++ m1
      ++ "\x7b% when 3 %\x7d" ++ m2 ++ "\x7b% endcase %\x7d" ++ s)
    (hbrace : ∀ k ≤ T.data.length, tagOpenL <+: T.data.drop k →
      k = p.data.length ∨ k = p.data.length + v.data.length + 11 ∨
      k = p.data.length + v.data.length + m1.data.length + 28 ∨
      k = p.data.length + v.data.length + m1.data.length + m2.data.length + 40) :
    ∀ k, k < ("\x7b% when 1 or 2 %\x7d".data ++ (m1.data ++ ("\x7b% when 3 %\x7d".data
      ++ m2.data))).length →
      endcaseTagAt (("\x7b% when 1 or 2 %\x7d".data ++ (m1.data ++
        ("\x7b% when 3 %\x7d".data ++ m2.data))).drop k
        ++ ("\x7b% endcase %\x7d".data ++ s.data)) = none := by
  intro k hklt
  cases hec : endcaseTagAt (("\x7b% when 1 or 2 %\x7d".data ++ (m1.data ++
      ("\x7b% when 3 %\x7d".data ++ m2.data))).drop k
      ++ ("\x7b% endcase %\x7d".data ++ s.data)) with
  | none => rfl
  | some n =>
    exfalso
    have hpre := endcaseTagAt_inv_open hec
    rw [← List.drop_append_of_le_length (Nat.le_of_lt hklt)] at hpre
    have hassoc : ("\x7b% when 1 or 2 %\x7d".data ++ (m1.data ++ ("\x7b% when 3 %\x7d".data
        ++ m2.data))) ++ ("\x7b% endcase %\x7d".data ++ s.data)
        = "\x7b% when 1 or 2 %\x7d".data ++ (m1.data ++ ("\x7b% when 3 %\x7d".data
        ++ (m2.data ++ ("\x7b% endcase %\x7d".data ++ s.data)))) := by simp
    rw [hassoc] at hpre
    have hTd1 := c7_decomp1 p s v m1 m2 T hT
    have hdropT : T.data.drop ((p.data ++ ("\x7b% case ".data ++ (v.data
        ++ " %\x7d".data))).length + k)
        = ("\x7b% when 1 or 2 %\x7d".data ++ (m1.data ++ ("\x7b% when 3 %\x7d".data
        ++ (m2.data ++ ("\x7b% endcase %\x7d".data ++ s.data))))).drop k := by
      rw [hTd1, ← List.drop_drop, List.drop_left]
    have hL1 : ("\x7b% when 1 or 2 %\x7d".data).length = 17 := by decide
    have hL3 : ("\x7b% when 3 %\x7d".data).length = 12 := by decide
    have hLE : ("\x7b% endcase %\x7d".data).length = 13 := by decide
    have hplen : ("\x7b% case ".data).length = 8 := by decide
    have hwlen : (" %\x7d".data).length = 3 := by decide
    have hk := hbrace ((p.data ++ ("\x7b% case ".data ++ (v.data
        ++ " %\x7d".data))).length + k)
      (by rw [hTd1]
          simp at hklt ⊢
          omega)
      (by rw [hdropT]; exact hpre)
    simp at hk hklt
    have hm1 : m1.data.length = m1.length := rfl
    have hm2 : m2.data.length = m2.length := rfl
    have hpm : p.data.length = p.length := rfl
    have hvm : v.data.length = v.length := rfl
    rcases hk with hk | hk | hk | hk
    · omega
    · have hk0 : k = 0 := by omega
      subst hk0
      rw [List.drop_zero,
        show ("\x7b% when 1 or 2 %\x7d".data ++ (m1.data ++ ("\x7b% when 3 %\x7d".data
          ++ m2.data))) ++ ("\x7b% endcase %\x7d".data ++ s.data)
        = tagOpenL ++ ' ' :: 'w' :: (("hen 1 or 2 %\x7d".data ++ (m1.data ++
          ("\x7b% when 3 %\x7d".data ++ m2.data))) ++ ("\x7b% endcase %\x7d".data
          ++ s.data)) from rfl,
        endcaseTagAt_at_when] at hec
      cases hec
    · have hk1 : k = 17 + m1.data.length := by omega
      subst hk1
      have hdropblk : ("\x7b% when 1 or 2 %\x7d".data ++ (m1.data ++
          ("\x7b% when 3 %\x7d".data ++ m2.data))).drop (17 + m1.data.length)
          = "\x7b% when 3 %\x7d".data ++ m2.data := by
        rw [show ("\x7b% when 1 or 2 %\x7d".data ++ (m1.data ++ ("\x7b% when 3 %\x7d".data
            ++ m2.data))) = ("\x7b% when 1 or 2 %\x7d".data ++ m1.data)
            ++ ("\x7b% when 3 %\x7d".data ++ m2.data) from by simp]
        exact List.drop_left' (by simp only [List.length_append]; rw [hL1])
      rw [hdropblk,
        show ("\x7b% when 3 %\x7d".data ++ m2.data) ++ ("\x7b% endcase %\x7d".data
          ++ s.data)
        = tagOpenL ++ ' ' :: 'w' :: (("hen 3 %\x7d".data ++ m2.data)
          ++ ("\x7b% endcase %\x7d".data ++ s.data)) from rfl,
        endcaseTagAt_at_when] at hec
      cases hec
    · omega

theorem c7_case_single (p s v m1 m2 T : String)
    (hv : isWordIdent v = true)
    (hT : T = p ++ "\x7b% case " ++ v ++ " %\x7d\x7b% when 1 or 2 %\x7d" ++ m1
      ++ "\x7b% when 3 %\x7d" ++ m2 ++ "\x7b% endcase %\x7d" ++ s)
    (hbrace : ∀ k ≤ T.data.length, tagOpenL <+: T.data.drop k →
      k = p.data.length ∨ k = p.data.length + v.data.length + 11 ∨
      k = p.data.length + v.data.length + m1.data.length + 28 ∨
      k = p.data.length + v.data.length + m1.data.length + m2.data.length + 40) :
    scanAll (caseM v.data) none 0 T.data
      = [("\x7b% when 1 or 2 %\x7d".data ++ (m1.data ++ ("\x7b% when 3 %\x7d".data
        ++ m2.data)))] := by
  obtain ⟨hne, hall⟩ := isWordIdent_parts hv
  obtain ⟨n, hM⟩ := caseM_hit v.data (lastO p.data none)
    ("\x7b% when 1 or 2 %\x7d".data ++ (m1.data ++ ("\x7b% when 3 %\x7d".data
      ++ m2.data))) s.data hne hall (c7_endcase_none p s v m1 m2 T hT hbrace)
  have hTd0 := c7_decomp0 p s v m1 m2 T hT
  rw [hTd0]
  apply scanAll_single (caseM v.data) (caseM_nil v.data) _ n _ p.data none 0
    (Nat.zero_le _) hM
  intro a2 b2 he hlen
  cases hc : caseM v.data (lastO a2 none) b2 with
  | none => rfl
  | some x =>
    exfalso
    have hpre : tagOpenL <+: b2 := caseM_inv_open hc
    have heT : T.data = a2 ++ b2 := by rw [hTd0]; exact he
    have hk := hbrace a2.length (by rw [heT]; simp)
      (by rw [heT, List.drop_left]; exact hpre)
    rcases hk with hk | hk | hk | hk
    · exact hlen hk
    · have hb2 : b2 = "\x7b% when 1 or 2 %\x7d".data ++ (m1.data ++
          ("\x7b% when 3 %\x7d".data ++ (m2.data ++ ("\x7b% endcase %\x7d".data
          ++ s.data)))) := by
        have h2 := c7_decomp1 p s v m1 m2 T hT
        rw [heT] at h2
        exact (List.append_inj h2.symm (by simp [hk]; omega)).2.symm
      rw [hb2,
        show ("\x7b% when 1 or 2 %\x7d".data ++ (m1.data ++ ("\x7b% when 3 %\x7d".data
          ++ (m2.data ++ ("\x7b% endcase %\x7d".data ++ s.data)))))
        = tagOpenL ++ ' ' :: 'w' :: ("hen 1 or 2 %\x7d".data ++ (m1.data ++
          ("\x7b% when 3 %\x7d".data ++ (m2.data ++ ("\x7b% endcase %\x7d".data
          ++ s.data))))) from rfl,
        caseM_none_at_tag v.data _ 'w' _ (by decide) (by decide)] at hc
      cases hc
    · have hb2 : b2 = "\x7b% when 3 %\x7d".data ++ (m2.data ++
          ("\x7b% endcase %\x7d".data ++ s.data)) := by
        have h2 := c7_decomp2 p s v m1 m2 T hT
        rw [heT] at h2
        exact (List.append_inj h2.symm (by simp [hk]; omega)).2.symm
      rw [hb2,
        show ("\x7b% when 3 %\x7d".data ++ (m2.data ++ ("\x7b% endcase %\x7d".data
          ++ s.data)))
        = tagOpenL ++ ' ' :: 'w' :: ("hen 3 %\x7d".data ++ (m2.data ++
          ("\x7b% endcase %\x7d".data ++ s.data))) from rfl,
        caseM_none_at_tag v.data _ 'w' _ (by decide) (by decide)] at hc
      cases hc
    · have hb2 : b2 = "\x7b% endcase %\x7d".data ++ s.data := by
        have h2 := c7_decomp3 p s v m1 m2 T hT
        rw [heT] at h2
        exact (List.append_inj h2.symm (by simp [hk]; omega)).2.symm
      rw [hb2,
        show ("\x7b% endcase %\x7d".data ++ s.data)
        = tagOpenL ++ ' ' :: 'e' :: ("ndcase %\x7d".data ++ s.data) from rfl,
        caseM_none_at_tag v.data _ 'e' _ (by decide) (by decide)] at hc
      cases hc

theorem c7_when_pair (p s v m1 m2 T : String)
    (hT : T = p ++ "\x7b% case " ++ v ++ " %\x7d\x7b% when 1 or 2 %\x7d" ++ m1
      ++ "\x7b% when 3 %\x7d" ++ m2 ++ "\x7b% endcase %\x7d" ++ s)
    (hbrace : ∀ k ≤ T.data.length, tagOpenL <+: T.data.drop k →
      k = p.data.length ∨ k = p.data.length + v.data.length + 11 ∨
      k = p.data.length + v.data.length + m1.data.length + 28 ∨
      k = p.data.length + v.data.length + m1.data.length + m2.data.length + 40) :
    scanAll whenTagM none 0 ("\x7b% when 1 or 2 %\x7d".data ++ (m1.data ++
      ("\x7b% when 3 %\x7d".data ++ m2.data))) = ["1 or 2", "3"] := by
  rw [show ("\x7b% when 1 or 2 %\x7d".data ++ (m1.data ++ ("\x7b% when 3 %\x7d".data
      ++ m2.data)))
    = [] ++ (("\x7b% when 1 or 2 %\x7d".data ++ m1.data) ++ ("\x7b% when 3 %\x7d".data
      ++ m2.data)) from by simp]
  apply scanAll_pair whenTagM whenTagM_nil "1 or 2" "3" 17 12 _ (by decide) [] _ none
  · simp
  · rw [show ("\x7b% when 1 or 2 %\x7d".data ++ m1.data) ++ ("\x7b% when 3 %\x7d".data
        ++ m2.data)
      = "\x7b% when 1 or 2 %\x7d".data ++ (m1.data ++ ("\x7b% when 3 %\x7d".data
        ++ m2.data)) from by simp]
    exact whenTagM_12 _ _
  · exact whenTagM_3 _ _
  · intro a2 c2 he hlen1 hlen2
    cases hc : whenTagM (lastO a2 none) c2 with
    | none => rfl
    | some x =>
      exfalso
      have hpre : tagOpenL <+: c2 := whenTagM_inv_open hc
      have hble : "\x7b% when 1 or 2 %\x7d".data ++ (m1.data ++ ("\x7b% when 3 %\x7d".data
          ++ m2.data)) = a2 ++ c2 := by simpa using he
      have hj : a2.length ≤ ("\x7b% when 1 or 2 %\x7d".data ++ (m1.data ++
          ("\x7b% when 3 %\x7d".data ++ m2.data))).length := by
        rw [hble]; simp
      have hc2 : c2 = ("\x7b% when 1 or 2 %\x7d".data ++ (m1.data ++
          ("\x7b% when 3 %\x7d".data ++ m2.data))).drop a2.length := by
        rw [hble, List.drop_left]
      have hext : tagOpenL <+: (("\x7b% when 1 or 2 %\x7d".data ++ (m1.data ++
          ("\x7b% when 3 %\x7d".data ++ m2.data))) ++ ("\x7b% endcase %\x7d".data
          ++ s.data)).drop a2.length := by
        rw [List.drop_append_of_le_length hj, ← hc2]
        exact hpre.trans (List.prefix_append c2 _)
      have hassoc : ("\x7b% when 1 or 2 %\x7d".data ++ (m1.data ++
          ("\x7b% when 3 %\x7d".data ++ m2.data))) ++ ("\x7b% endcase %\x7d".data
          ++ s.data)
          = "\x7b% when 1 or 2 %\x7d".data ++ (m1.data ++ ("\x7b% when 3 %\x7d".data
          ++ (m2.data ++ ("\x7b% endcase %\x7d".data ++ s.data)))) := by simp
      rw [hassoc] at hext
      have hTd1 := c7_decomp1 p s v m1 m2 T hT
      have hdropT : T.data.drop ((p.data ++ ("\x7b% case ".data ++ (v.data
          ++ " %\x7d".data))).length + a2.length)
          = ("\x7b% when 1 or 2 %\x7d".data ++ (m1.data ++ ("\x7b% when 3 %\x7d".data
          ++ (m2.data ++ ("\x7b% endcase %\x7d".data ++ s.data))))).drop a2.length := by
        rw [hTd1, ← List.drop_drop, List.drop_left]
      have hk := hbrace ((p.data ++ ("\x7b% case ".data ++ (v.data
          ++ " %\x7d".data))).length + a2.length)
        (by rw [hTd1]
            simp at hj ⊢
            omega)
        (by rw [hdropT]; exact hext)
      simp at hk hj hlen1 hlen2
      have hm1 : m1.data.length = m1.length := rfl
      have hm2 : m2.data.length = m2.length := rfl
      have hpm : p.data.length = p.length := rfl
      have hvm : v.data.length = v.length := rfl
      rcases hk with hk | hk | hk | hk
      · omega
      · exact hlen1 (List.eq_nil_of_length_eq_zero (by omega))
      · omega
      · have hj3 : a2.length = ("\x7b% when 1 or 2 %\x7d".data ++ (m1.data ++
            ("\x7b% when 3 %\x7d".data ++ m2.data))).length := by simp; omega
        have hc2nil : c2 = [] := by
          rw [hc2, hj3, List.drop_length]
        rw [hc2nil, List.prefix_nil] at hpre
        simp [tagOpenL] at hpre

/-- Claim C7: for every template holding a case block on the variable
with the when clauses 1-or-2 and 3 - the name and the tag opener
occurring nowhere else in the text - the collected evidence is exactly
the numbers 1, 2 and 3 in order, each or-operand parsed independently,
and the inferred kind is number. -/
theorem infer_case_numbers (p s v m1 m2 T : String)
    (hv : isWordIdent v = true)
    (hT : T = p ++ "\x7b% case " ++ v ++ " %\x7d\x7b% when 1 or 2 %\x7d" ++ m1
      ++ "\x7b% when 3 %\x7d" ++ m2 ++ "\x7b% endcase %\x7d" ++ s)
    (hbrace : ∀ k ≤ T.data.length, tagOpenL <+: T.data.drop k →
      k = p.data.length ∨ k = p.data.length + v.data.length + 11 ∨
      k = p.data.length + v.data.length + m1.data.length + 28 ∨
      k = p.data.length + v.data.length + m1.data.length + m2.data.length + 40)
    (hocc : ∀ k ≤ T.data.length, v.data <+: T.data.drop k → k = p.data.length + 8) :
    findLiquidVariableValues [v] T
      = .ok [(v, [.num (jsInt 1), .num (jsInt 2), .num (jsInt 3)])] ∧
    typeOfVar none [.num (jsInt 1), .num (jsInt 2), .num (jsInt 3)] = "number" := by
  have hcomp := c7_comp_empty p s v m1 m2 T hv hT hocc
  have hbh : booleanHit v T = false := by
    unfold booleanHit
    rw [c7_bool_empty p s v m1 m2 T hT hbrace]
    rfl
  have hcase : caseBlocks v T = [("\x7b% when 1 or 2 %\x7d".data ++ (m1.data ++
      ("\x7b% when 3 %\x7d".data ++ m2.data)))] := by
    unfold caseBlocks
    exact c7_case_single p s v m1 m2 T hv hT hbrace
  have hwhen : whenCaptures ("\x7b% when 1 or 2 %\x7d".data ++ (m1.data ++
      ("\x7b% when 3 %\x7d".data ++ m2.data))) = ["1 or 2", "3"] := by
    unfold whenCaptures
    exact c7_when_pair p s v m1 m2 T hT hbrace
  have hA : analyzeOne v T = [.num (jsInt 1), .num (jsInt 2), .num (jsInt 3)] := by
    unfold analyzeOne
    rw [hcomp, hbh, hcase]
    simp only [List.foldl_nil, List.foldl_cons, Bool.false_eq_true, if_false]
    rw [hwhen]
    exact c7_fold_concrete
  refine ⟨?_, by decide⟩
  unfold findLiquidVariableValues
  rw [find?_invalid_single (wordIdent_fragmentValid v hv), eraseDups_single]
  simp [hA]

/-- Claim C7, witness: the concrete template with one case block and
surrounding text. -/
theorem infer_case_numbers_witness :
    findLiquidVariableValues ["fruit"]
      "pre \x7b% case fruit %\x7d\x7b% when 1 or 2 %\x7dA\x7b% when 3 %\x7dB\x7b% endcase %\x7d post"
      = .ok [("fruit", [.num (jsInt 1), .num (jsInt 2), .num (jsInt 3)])] ∧
    typeOfVar none [.num (jsInt 1), .num (jsInt 2), .num (jsInt 3)] = "number" :=
  infer_case_numbers "pre " " post" "fruit" "A" "B"
    "pre \x7b% case fruit %\x7d\x7b% when 1 or 2 %\x7dA\x7b% when 3 %\x7dB\x7b% endcase %\x7d post"
    (by decide) (by decide) (by decide) (by decide)
